import Mathlib

/-!
Verification development for the kiro-cli-zed bridge.

The source is a TypeScript bridge that translates the ANSI-colored
transcript of a `kiro-cli chat` subprocess into typed protocol events.
Strings are modelled as `List Char`.  Each definition below is a direct
shallow embedding of a function of the source:

* `stripAnsi` / `ansiMatch` embed `src/ansi.ts` (the `ANSI_PATTERN`
  regex, replaced globally by the empty string, with JavaScript's
  leftmost / greedy-with-backtracking match semantics).
* `splitNL`, `endsNL`, `processChunk`, `kiroRun` embed the
  `processChunk` chunk translator of `src/kiro.ts` (split on
  `/\r\n|\r|\n/`, pop the unterminated tail, restore `\n`).
* `matchToolStart`, `handleLine`, `handleChunk`, `sendUpdate`,
  `settleStreams`, `finishTurn`, `runTurn` embed the per-turn agent
  machinery of `src/agent.ts` (`prompt`, `cancel`).
* `setSessionMode`, `setSessionModel`, `newSessionModes` embed the
  session handlers of `src/agent.ts`.
* `promptToText` embeds `src/prompt.ts`.
-/

/-! ## JavaScript character classes -/

/-- JavaScript `\s` (whitespace class used by `\s*` and `trim`). -/
def jsSpace (c : Char) : Bool :=
  c = ' ' || c = '\t' || c = '\n' || c = '\r' || c = '\x0b' || c = '\x0c' ||
  c = '\u00a0' || c = '\u1680' || ('\u2000' ≤ c && c ≤ '\u200a') ||
  c = '\u2028' || c = '\u2029' || c = '\u202f' || c = '\u205f' ||
  c = '\u3000' || c = '\ufeff'

/-- JavaScript `.` without the `s` flag: any char but a line terminator. -/
def jsDot (c : Char) : Bool :=
  !(c = '\n' || c = '\r' || c = '\u2028' || c = '\u2029')

/-- Length of the longest run of characters satisfying `p` at the head. -/
def runLen (p : Char → Bool) : List Char → Nat
  | [] => 0
  | c :: r => if p c then runLen p r + 1 else 0

/-- Try `f n, f (n-1), …, f 0` and return the first defined result
(greedy backtracking order of a regex quantifier). -/
def tryDown (f : Nat → Option α) : Nat → Option α
  | 0 => f 0
  | n + 1 => (f (n + 1)) <|> tryDown f n

/-- Try `f lo, f (lo+1), …` for `cnt` attempts and return the first
defined result (lazy backtracking order). -/
def tryUp (f : Nat → Option α) (lo : Nat) : Nat → Option α
  | 0 => none
  | cnt + 1 => (f lo) <|> tryUp f (lo + 1) cnt

/-- `pre` is a prefix of `s`: return the remainder. -/
def dropPre : List Char → List Char → Option (List Char)
  | [], s => some s
  | _, [] => none
  | p :: ps, c :: cs => if p = c then dropPre ps cs else none

/-- `hasPre pre s` is JavaScript `s.startsWith(pre)`. -/
def hasPre (pre s : List Char) : Bool := (dropPre pre s).isSome

/-- `containsSub pat s` is JavaScript `re.test(s)` for a regex that is a
plain literal `pat`: does `pat` occur contiguously inside `s`? -/
def containsSub (pat : List Char) : List Char → Bool
  | [] => pat.isEmpty
  | c :: r => hasPre pat (c :: r) || containsSub pat r

/-- JavaScript `String.prototype.trim`. -/
def jsTrim (s : List Char) : List Char :=
  ((s.dropWhile jsSpace).reverse.dropWhile jsSpace).reverse

/-! ## `src/ansi.ts` — `ANSI_PATTERN` and `stripAnsi`

The pattern is
`/[\u001B\u009B][[()#;?]*(?:[0-9]{1,4}(?:;[0-9]{0,4})*)?[0-9A-ORZcf-nqry=><]/g`.
`ansiMatch` returns the length of the match starting at the head of the
input, following the backtracking order of the JavaScript engine
(greedy quantifiers try longest first). -/

/-- The `[[()#;?]` intermediate class of `ANSI_PATTERN`. -/
def ansiClass1 (c : Char) : Bool :=
  c = '[' || c = '(' || c = ')' || c = '#' || c = ';' || c = '?'

/-- Decimal digit class `[0-9]`. -/
def isDigitCh (c : Char) : Bool := '0' ≤ c && c ≤ '9'

/-- The final class `[0-9A-ORZcf-nqry=><]` of `ANSI_PATTERN`. -/
def ansiFinalClass (c : Char) : Bool :=
  isDigitCh c || ('A' ≤ c && c ≤ 'O') || c = 'R' || c = 'Z' || c = 'c' ||
  ('f' ≤ c && c ≤ 'n') || c = 'q' || c = 'r' || c = 'y' ||
  c = '=' || c = '>' || c = '<'

/-- Match the single final-class character. -/
def ansiFinal : List Char → Option Nat
  | [] => none
  | c :: _ => if ansiFinalClass c then some 1 else none

/-- Match `(?:;[0-9]{0,4})*` followed by the final class, greedily, with
backtracking.  `fuel` bounds the recursion (each group eats the `;`). -/
def ansiGroupsFinal : Nat → List Char → Option Nat
  | 0, s => ansiFinal s
  | fuel + 1, s =>
    (match s with
     | ';' :: s2 =>
       tryDown
         (fun d => (ansiGroupsFinal fuel (s2.drop d)).map (fun m => 1 + d + m))
         (min 4 (runLen isDigitCh s2))
     | _ => none) <|> ansiFinal s

/-- Match `[0-9]{1,4}(?:;[0-9]{0,4})*` followed by the final class. -/
def ansiDigitsFinal (s : List Char) : Option Nat :=
  tryDown
    (fun d =>
      if d = 0 then none
      else (ansiGroupsFinal (s.length + 1) (s.drop d)).map (fun m => d + m))
    (min 4 (runLen isDigitCh s))

/-- Match the part of `ANSI_PATTERN` after the introducer character. -/
def ansiAfterIntro (s : List Char) : Option Nat :=
  tryDown
    (fun k =>
      ((ansiDigitsFinal (s.drop k)) <|> ansiFinal (s.drop k)).map
        (fun m => k + m))
    (runLen ansiClass1 s)

/-- Length of the `ANSI_PATTERN` match starting at the head of `s`
(`none` when the pattern does not match there). -/
def ansiMatch : List Char → Option Nat
  | [] => none
  | c :: rest =>
    if c = '\u001b' || c = '\u009b' then
      (ansiAfterIntro rest).map (fun m => 1 + m)
    else none

/-- Left-to-right scan of `input.replace(ANSI_PATTERN, "")`: `skip`
counts characters of the current match still to be deleted. -/
def stripGo : Nat → List Char → List Char
  | _, [] => []
  | k + 1, _ :: rest => stripGo k rest
  | 0, c :: rest =>
    match ansiMatch (c :: rest) with
    | some n => stripGo (n - 1) rest
    | none => c :: stripGo 0 rest

/-- `stripAnsi` of `src/ansi.ts`: `input.replace(ANSI_PATTERN, "")`.
Scans left to right, removing every match. -/
def stripAnsi (s : List Char) : List Char := stripGo 0 s

example : stripAnsi "\u001b[31mHello\n".data = "Hello\n".data := by decide
example : stripAnsi "a\u001b".data = "a\u001b".data := by decide
example : stripAnsi "\u001b[".data = "\u001b[".data := by decide
example : stripAnsi "\u001b123".data = [] := by decide
example : stripAnsi "plain ✓ text".data = "plain ✓ text".data := by decide

/-! ## `src/kiro.ts` — `processChunk`

`processChunk` strips ANSI codes from the incoming chunk, prepends the
buffered partial line, splits on `/\r\n|\r|\n/`, emits every complete
line with `"\n"` restored, keeps the unterminated tail as the next
buffer, and on the final call emits the tail as-is. -/

/-- JavaScript `combined.split(/\r\n|\r|\n/)`. -/
def splitNL : List Char → List (List Char)
  | [] => [[]]
  | '\r' :: '\n' :: rest => [] :: splitNL rest
  | '\r' :: rest => [] :: splitNL rest
  | '\n' :: rest => [] :: splitNL rest
  | c :: rest =>
    match splitNL rest with
    | [] => [[c]]
    | h :: t => (c :: h) :: t

/-- JavaScript `/(\r\n|\r|\n)$/.test(s)`. -/
def endsNL (s : List Char) : Bool :=
  match s.getLast? with
  | some c => c = '\n' || c = '\r'
  | none => false

/-- `processChunk` of `src/kiro.ts`: returns the list of emitted
`chunk`-event texts and the new buffer. -/
def processChunk (rawChunk : List Char) (isFinal : Bool) (buffer : List Char) :
    List (List Char) × List Char :=
  let cleaned := stripAnsi rawChunk
  let combined := buffer ++ cleaned
  let parts := splitNL combined
  let nextBuffer := if endsNL combined then [] else parts.getLastD []
  let emitted := parts.dropLast.map (fun l => l ++ ['\n'])
  if isFinal && !nextBuffer.isEmpty then (emitted ++ [nextBuffer], [])
  else (emitted, nextBuffer)

/-- One `data` callback of the stdout stream. -/
def kiroStep (acc : List (List Char) × List Char) (c : List Char) :
    List (List Char) × List Char :=
  let r := processChunk c false acc.2
  (acc.1 ++ r.1, r.2)

/-- All `chunk`-event texts produced for a given chunking of the stdout
stream: every `data` callback, then the final flush on `close`. -/
def kiroRun (chunks : List (List Char)) : List (List Char) :=
  let fin := chunks.foldl kiroStep ([], [])
  fin.1 ++ (processChunk [] true fin.2).1

example : kiroRun ["a\r\nb\n".data] = ["a\n".data, "b\n".data] := by decide
example : kiroRun ["a\r".data, "\nb\n".data] =
    ["a\n".data, "\n".data, "b\n".data] := by decide
example : kiroRun ["tail".data] = ["tail".data] := by decide

/-! ## `src/agent.ts` — line classification and tool-call tracking

`handleLine` first tests the tool-announcement regex
`/^I will run the following command:\s*(.+?)\s*\(using tool:\s*([^)]+)\)\s*$/`.
The matcher below mirrors the backtracking order of the JavaScript
engine: greedy `\s*` tries longest first, the lazy `(.+?)` tries
shortest first. -/

/-- `([^)]+)\)\s*$`: greedy run of non-`)` characters, a literal `)`,
then only whitespace; returns capture group 2. -/
def tsTool (s : List Char) : Option (List Char) :=
  tryDown
    (fun n =>
      if n = 0 then none
      else
        match s.drop n with
        | ')' :: r => if r.all jsSpace then some (s.take n) else none
        | _ => none)
    (runLen (fun c => !(c = ')')) s)

/-- `\s*([^)]+)\)\s*$`. -/
def tsAfterParen (s : List Char) : Option (List Char) :=
  tryDown (fun k => tsTool (s.drop k)) (runLen jsSpace s)

/-- `\(using tool:\s*([^)]+)\)\s*$`, paired with capture group 1. -/
def tsParen (g1 s : List Char) : Option (List Char × List Char) :=
  (dropPre "(using tool:".data s).bind
    (fun r => (tsAfterParen r).map (fun g2 => (g1, g2)))

/-- `\s*\(using tool:…` after the lazy group. -/
def tsGap (g1 s : List Char) : Option (List Char × List Char) :=
  tryDown (fun k => tsParen g1 (s.drop k)) (runLen jsSpace s)

/-- The lazy `(.+?)`: grow capture group 1 one character at a time. -/
def tsLazy (s : List Char) : Option (List Char × List Char) :=
  tryUp (fun n => tsGap (s.take n) (s.drop n)) 1 (runLen jsDot s)

/-- Leading `\s*` after the fixed announcement text. -/
def tsLead (s : List Char) : Option (List Char × List Char) :=
  tryDown (fun k => tsLazy (s.drop k)) (runLen jsSpace s)

/-- `line.match(toolStartRe)` of `src/agent.ts`, returning the two
capture groups already passed through `.trim()` as `handleLine` does. -/
def matchToolStart (line : List Char) : Option (List Char × List Char) :=
  ((dropPre "I will run the following command:".data line).bind tsLead).map
    (fun p => (jsTrim p.1, jsTrim p.2))

example : matchToolStart "I will run the following command: ls (using tool: shell)".data
    = some ("ls".data, "shell".data) := by decide
example : matchToolStart "hello world".data = none := by decide
example : matchToolStart
    "I will run the following command: a (using tool: x) (using tool: y)".data
    = some ("a (using tool: x)".data, "y".data) := by decide

/-- `toolDoneRe` of `src/agent.ts`: an unanchored regex that is the
literal text `- Completed in ` (with a trailing space). -/
def toolDone (line : List Char) : Bool := containsSub "- Completed in ".data line

/-- `thoughtPrefixes` of `src/agent.ts`. -/
def thoughtPre : List (List Char) :=
  ["Thought:".data, "Reasoning:".data, "Chain of Thought:".data,
   "Chain-of-thought:".data, "Scratchpad:".data]

inductive ToolKind
  | execute
  | other
deriving DecidableEq

inductive ToolStatus
  | inProgress
  | completed
  | failed
deriving DecidableEq

/-- The `activeTool` record of `prompt` in `src/agent.ts`. -/
structure ActiveTool where
  id : Nat
  kind : ToolKind
  title : List Char
  rawInput : List Char
  output : List (List Char)
deriving DecidableEq

/-- One `session/update` payload handed to `sendUpdate`. -/
inductive AgentEvent
  | toolCall (id : Nat) (title : List Char) (kind : ToolKind) (rawInput : List Char)
  | toolCallUpdate (id : Nat) (status : Option ToolStatus) (output : List (List Char))
  | messageChunk (text : List Char)
  | thoughtChunk (text : List Char)
deriving DecidableEq

/-- Per-turn mutable state of `prompt` in `src/agent.ts`.  `queue` is
the sequence of updates enqueued on the serialized send chain. -/
structure TurnState where
  cancelled : Bool
  sentAny : Bool
  toolSeq : Nat
  activeTool : Option ActiveTool
  lineBuffer : List Char
  queue : List AgentEvent
deriving DecidableEq

/-- `sendUpdate` of `src/agent.ts`: drop the update if the session was
cancelled, otherwise mark `sentAny` and append to the send chain. -/
def sendUpdate (ev : AgentEvent) (st : TurnState) : TurnState :=
  if st.cancelled then st
  else { st with sentAny := true, queue := st.queue ++ [ev] }

/-- The `tool_call_update` payload built by `sendToolUpdate`. -/
def toolUpdateEv (t : ActiveTool) (status : Option ToolStatus) : AgentEvent :=
  .toolCallUpdate t.id status t.output

/-- `handleLine` of `src/agent.ts`. -/
def handleLine (line : List Char) (st : TurnState) : TurnState :=
  match matchToolStart line with
  | some (command, toolName) =>
    let st :=
      match st.activeTool with
      | some t => sendUpdate (toolUpdateEv t (some .completed)) st
      | none => st
    let seq := st.toolSeq + 1
    let kind := if toolName = "shell".data then ToolKind.execute else ToolKind.other
    let title := if !toolName.isEmpty then toolName ++ ": ".data ++ command else command
    let t : ActiveTool := ⟨seq, kind, title, command, []⟩
    let st := { st with toolSeq := seq, activeTool := some t }
    sendUpdate (.toolCall t.id t.title t.kind t.rawInput) st
  | none =>
    match st.activeTool with
    | some t =>
      if toolDone line then
        let st := sendUpdate (toolUpdateEv t (some .completed)) st
        { st with activeTool := none }
      else
        let t2 := { t with output := t.output ++ [line] }
        let st := { st with activeTool := some t2 }
        sendUpdate (toolUpdateEv t2 (some .inProgress)) st
    | none =>
      if thoughtPre.any (fun p => hasPre p line) then
        sendUpdate (.thoughtChunk (line ++ ['\n'])) st
      else
        sendUpdate (.messageChunk (line ++ ['\n'])) st

/-- `feedLines ls st` runs `handleLine` on each line in order. -/
def feedLines (ls : List (List Char)) (st : TurnState) : TurnState :=
  ls.foldl (fun s l => handleLine l s) st

/-- `handleChunk` of `src/agent.ts`: append to `lineBuffer`, split on
`/\r\n|\r|\n/`, pop the unterminated tail back into `lineBuffer`, and
classify every complete line. -/
def handleChunk (text : List Char) (st : TurnState) : TurnState :=
  let parts := splitNL (st.lineBuffer ++ text)
  feedLines parts.dropLast { st with lineBuffer := parts.getLastD [] }

/-- External input to one turn: a `chunk` stream event from
`runKiroChat`, or the `cancel` handler running for this session. -/
inductive TurnInput
  | chunk (text : List Char)
  | cancel
deriving DecidableEq

def isCancelInput : TurnInput → Bool
  | .cancel => true
  | _ => false

def turnStep (st : TurnState) : TurnInput → TurnState
  | .chunk t => handleChunk t st
  | .cancel => { st with cancelled := true }

/-- Resolution of the `prompt` request. -/
inductive StopOutcome
  | cancelled
  | internalError (msg : List Char)
  | endTurn
deriving DecidableEq

/-- JavaScript `${exit.code ?? "?"}` for `exit.code : number | null`. -/
def intStr : Option Int → List Char
  | some n => (toString n).data
  | none => ['?']

/-- `if (lineBuffer.length > 0) { handleLine(lineBuffer); lineBuffer = "" }`
after the subprocess closed. -/
def flushLineBuffer (st : TurnState) : TurnState :=
  if !st.lineBuffer.isEmpty then { handleLine st.lineBuffer st with lineBuffer := [] }
  else st

/-- `if (activeTool) { sendToolUpdate(exit.code === 0 ? "completed" : "failed");
activeTool = null }` after the subprocess closed. -/
def forceCloseTool (exitCode : Option Int) (st : TurnState) : TurnState :=
  match st.activeTool with
  | some t =>
    { sendUpdate
        (toolUpdateEv t (some (if exitCode = some 0 then .completed else .failed))) st
      with activeTool := none }
  | none => st

/-- Lines 724–733 of `src/agent.ts`: after the subprocess closed, flush
the buffered partial line and force-close a still-open tool call with a
status determined by the exit code. -/
def settleStreams (exitCode : Option Int) (st : TurnState) : TurnState :=
  forceCloseTool exitCode (flushLineBuffer st)

/-- Lines 735–749 of `src/agent.ts`: settle the streams, then pick the
stop reason — `cancelled`, an internal error carrying the exit code when
nothing was ever sent, or `end_turn` (with a visible exit-code notice
appended when the exit code was non-zero). -/
def finishTurn (exitCode : Option Int) (st : TurnState) : TurnState × StopOutcome :=
  let st := settleStreams exitCode st
  if st.cancelled then (st, .cancelled)
  else if !st.sentAny && !(exitCode = some 0) then
    (st, .internalError ("kiro-cli exited with code ".data ++ intStr exitCode))
  else if !(exitCode = some 0) then
    (sendUpdate
      (.messageChunk ('\n' :: "(kiro-cli 退出码: ".data ++ intStr exitCode ++ ")\n".data))
      st, .endTurn)
  else (st, .endTurn)

/-- Initial per-turn state (`prompt` clears `cancelled` on entry). -/
def initTurn : TurnState := ⟨false, false, 0, none, [], []⟩

def runTurnState (inputs : List TurnInput) : TurnState :=
  inputs.foldl turnStep initTurn

/-- One whole turn of `prompt`: process the stream inputs, then the
subprocess exit. -/
def runTurn (inputs : List TurnInput) (exitCode : Option Int) :
    TurnState × StopOutcome :=
  finishTurn exitCode (runTurnState inputs)

/-- The full stdout pipeline of one turn: `runKiroChat`'s `processChunk`
over the given chunking, each emitted text fed to `handleChunk`. -/
def streamEvents (chunks : List (List Char)) (exitCode : Option Int) :
    List AgentEvent :=
  ((runTurn ((kiroRun chunks).map TurnInput.chunk) exitCode).1).queue

example :
    streamEvents ["hello\n".data] (some 0) = [.messageChunk "hello\n".data] := by
  decide
example :
    streamEvents ["Thought: hmm\n".data] (some 0)
      = [.thoughtChunk "Thought: hmm\n".data] := by
  decide

/-! ## `src/agent.ts` — session state, `newSession` mode resolution,
`setSessionMode`, `setSessionModel` -/

/-- One entry of `modes.availableModes`. -/
structure ModeEntry where
  id : List Char
  name : List Char
  description : Option (List Char)
deriving DecidableEq

/-- One entry of `models.availableModels`. -/
structure ModelEntry where
  modelId : List Char
  name : List Char
  description : List Char
deriving DecidableEq

structure ModesState where
  currentModeId : List Char
  availableModes : List ModeEntry
deriving DecidableEq

structure ModelsState where
  currentModelId : List Char
  availableModels : List ModelEntry
deriving DecidableEq

inductive WrapMode
  | always
  | never
  | auto
deriving DecidableEq

/-- The per-session record of `src/agent.ts` (fields whose dynamics the
protocol handlers touch; subprocess handles stay external). -/
structure SessionS where
  started : Bool
  cancelled : Bool
  preflightOk : Bool
  kiroDefaultAgent : Option (List Char)
  trustAllTools : Bool
  trustTools : Option (List Char)
  wrap : WrapMode
  verbose : Bool
  modes : ModesState
  models : ModelsState
deriving DecidableEq

/-- Notification pushed to the client connection by `setSessionMode`. -/
inductive SessionNotice
  | currentModeUpdate (modeId : List Char)
deriving DecidableEq

/-- `setSessionMode` of `src/agent.ts`: validate the id against
`availableModes`, throw `Invalid mode` if absent, else update the
selection and notify the client. -/
def setSessionMode (s : SessionS) (modeId : List Char) :
    Except (List Char) (SessionS × SessionNotice) :=
  if s.modes.availableModes.any (fun m => m.id = modeId) then
    .ok ({ s with modes := { s.modes with currentModeId := modeId } },
         .currentModeUpdate modeId)
  else .error "Invalid mode".data

/-- `setSessionModel` of `src/agent.ts`. -/
def setSessionModel (s : SessionS) (modelId : List Char) :
    Except (List Char) SessionS :=
  if s.models.availableModels.any (fun m => m.modelId = modelId) then
    .ok { s with models := { s.models with currentModelId := modelId } }
  else .error "Invalid model".data

/-- Session state after the `setSessionMode` handler ran (a thrown
error leaves the stored session untouched). -/
def applySetSessionMode (s : SessionS) (modeId : List Char) : SessionS :=
  match setSessionMode s modeId with
  | .ok (s2, _) => s2
  | .error _ => s

/-- Session state after the `setSessionModel` handler ran. -/
def applySetSessionModel (s : SessionS) (modelId : List Char) : SessionS :=
  match setSessionModel s modelId with
  | .ok s2 => s2
  | .error _ => s

/-- The preferred-mode resolution of `newSession`:
`requested && requested !== "default" ? requested :
 (zedDefaultMode(...) ?? defaultAgent ?? agents[0]?.id ?? "default")`. -/
def resolvePreferred (requested zedDefault defaultAgent : Option (List Char))
    (agents : List ModeEntry) : List Char :=
  let fallback :=
    ((zedDefault.or defaultAgent).or (agents.head?.map (fun a => a.id))).getD
      "default".data
  match requested with
  | some r => if !r.isEmpty && !(r = "default".data) then r else fallback
  | none => fallback

/-- The `modes` record built by `newSession` in `src/agent.ts`: the
discovered agents (or a built-in `default` entry when none), plus a
synthesized entry `{ id, name, description: "From settings" }` when the
preferred mode is neither `default` nor already present. -/
def newSessionModes (requested zedDefault defaultAgent : Option (List Char))
    (agents : List ModeEntry) : ModesState :=
  let preferred := resolvePreferred requested zedDefault defaultAgent agents
  let base :=
    if !agents.isEmpty then agents
    else [⟨"default".data, "default".data, none⟩]
  let available :=
    if !preferred.isEmpty && !(preferred = "default".data) &&
        !(base.any (fun m => m.id = preferred)) then
      base ++ [⟨preferred, preferred, some "From settings".data⟩]
    else base
  ⟨preferred, available⟩

example :
    newSessionModes none none none []
      = ⟨"default".data, [⟨"default".data, "default".data, none⟩]⟩ := by decide
example :
    (newSessionModes (some "dev".data) none none
        [⟨"foo".data, "foo".data, none⟩]).availableModes
      = [⟨"foo".data, "foo".data, none⟩,
         ⟨"dev".data, "dev".data, some "From settings".data⟩] := by decide

/-! ## `src/prompt.ts` — `promptToText` -/

/-- One content chunk of a `prompt` request, restricted to the cases
the `switch` in `promptToText` handles. -/
inductive PChunk
  | text (t : List Char)
  | resourceLink (uri : List Char)
  | resource (uri : List Char) (rtext : Option (List Char))
  | image (uri : Option (List Char))
deriving DecidableEq

/-- `promptToText` of `src/prompt.ts`: push a part per chunk (skipping
text-less embedded resources and uri-less images) and join with `""`. -/
def promptToText (ps : List PChunk) : List Char :=
  (ps.map fun ch =>
    match ch with
    | .text t => t
    | .resourceLink u => u
    | .resource uri (some t) =>
      '\n' :: "<context ref=\"".data ++ uri ++ "\">\n".data ++ t ++
        "\n</context>\n".data
    | .resource _ none => []
    | .image (some u) => if !u.isEmpty then u else []
    | .image none => []).flatten

example :
    promptToText [.text "a".data, .resourceLink "file:///x".data, .text "b".data]
      = "afile:///xb".data := by decide

/-! ## Derived notions used by the verification -/

/-- The split of a stream into its complete lines and the unterminated
trailing fragment (`split` + `pop`, as both buffering layers do it). -/
def splitP (s : List Char) : List (List Char) × List Char :=
  ((splitNL s).dropLast, (splitNL s).getLastD [])

/-- Characters that neither `stripAnsi` nor the CR/LF handling of the
buffering layers treat specially. -/
def plainChar (c : Char) : Bool :=
  !(c = '\r' || c = '\u001b' || c = '\u009b')

/-- `inputs` contains no `cancel` notification. -/
def noCancel (inputs : List TurnInput) : Bool :=
  inputs.all (fun i => !isCancelInput i)

/-- Does this event open the tool call with id `i`? -/
def evIsToolCall (i : Nat) : AgentEvent → Bool
  | .toolCall j _ _ _ => j = i
  | _ => false

/-- Does this event carry the tool-call id `i`? -/
def evMentions (i : Nat) : AgentEvent → Bool
  | .toolCall j _ _ _ => j = i
  | .toolCallUpdate j _ _ => j = i
  | _ => false

/-- Is this event a terminal status update (`completed` or `failed`)? -/
def evIsTerm : AgentEvent → Bool
  | .toolCallUpdate _ (some .completed) _ => true
  | .toolCallUpdate _ (some .failed) _ => true
  | _ => false

/-- A `tool_call` start for id `i` occurs in `q`. -/
def openedB (i : Nat) (q : List AgentEvent) : Bool := q.any (evIsToolCall i)

/-- Number of terminal status updates carrying id `i` in `q`. -/
def termCount (i : Nat) (q : List AgentEvent) : Nat :=
  q.countP (fun e => evMentions i e && evIsTerm e)

/-- The last event of `q`, when `q` is nonempty, is terminal. -/
def lastIsTerm (q : List AgentEvent) : Bool :=
  match q.getLast? with
  | some e => evIsTerm e
  | none => false

/-- Id `i` was closed properly in `q`: exactly one terminal update, and
the last event carrying id `i` is that terminal update. -/
def closedOKB (i : Nat) (q : List AgentEvent) : Bool :=
  termCount i q = 1 && lastIsTerm (q.filter (evMentions i))

/-- The decomposition performed by `stripAnsi`'s scan: each input
character is either kept verbatim (no `ANSI_PATTERN` match starts
there) or swallowed as part of an `n`-character recognized escape
sequence. -/
inductive StripDecomp : List Char → List Char → Prop
  | nil : StripDecomp [] []
  | keep {c : Char} {s t : List Char} :
      ansiMatch (c :: s) = none → StripDecomp s t → StripDecomp (c :: s) (c :: t)
  | strip {c : Char} {s t : List Char} {n : Nat} :
      ansiMatch (c :: s) = some n → StripDecomp (s.drop (n - 1)) t →
      StripDecomp (c :: s) t

/-- The contribution of one prompt chunk according to the specification:
the text of text chunks, the uri of resource-link chunks, the
context-wrapped text of text-bearing resource chunks, the uri of
uri-bearing image chunks, nothing otherwise. -/
def chunkContribSpec : PChunk → List Char
  | .text t => t
  | .resourceLink u => u
  | .resource uri (some t) =>
    '\n' :: "<context ref=\"".data ++ uri ++ "\">\n".data ++ t ++
      "\n</context>\n".data
  | .resource _ none => []
  | .image (some u) => u
  | .image none => []

/-- A prompt chunk that contributes nothing: a resource without text or
an image without uri. -/
def voidChunk : PChunk → Bool
  | .resource _ none => true
  | .image none => true
  | _ => false

/-- The four-line transcript of the tool-call scenario. -/
def scenarioChunks : List (List Char) :=
  ["I will run the following command: ls (using tool: shell)\n".data,
   "file.txt\n".data,
   "- Completed in 0.1s\n".data,
   "Done.\n".data]

/-- `c` is not an escape-sequence introducer (neither U+001B nor U+009B). -/
def noEsc (c : Char) : Bool := !(c = '\u001b' || c = '\u009b')

/-- Well-formed collaborator outputs for `newSession`: the environment
override, the host settings default and the scraped default are never
the empty string, and every scraped agent has a nonempty id (all
guaranteed by `envString`, `zedDefaultMode` and `listKiroAgents`). -/
def wfModeInputs (requested zedDefault defaultAgent : Option (List Char))
    (agents : List ModeEntry) : Bool :=
  !(requested = some []) && !(zedDefault = some []) &&
  !(defaultAgent = some []) && agents.all (fun a => !a.id.isEmpty)

/-- The mode invariant: the available-mode list contains an entry whose
id is the currently selected mode id. -/
def modesInvariant (m : ModesState) : Bool :=
  m.availableModes.any (fun e => e.id = m.currentModeId)

/-- Every tool-call id mentioned by an event of `q` is at most `n`. -/
def mentionBound (n : Nat) (q : List AgentEvent) : Prop :=
  ∀ i e, e ∈ q → evMentions i e = true → i ≤ n

/-- Invariant of the per-turn tool-call tracking: mentioned ids never
exceed the id counter; an open tool call is the most recent id, has
been announced and has no terminal update yet; every other announced
id was closed properly. -/
def TurnInv (st : TurnState) : Prop :=
  mentionBound st.toolSeq st.queue ∧
  match st.activeTool with
  | some t =>
    t.id = st.toolSeq ∧ openedB t.id st.queue = true ∧
    termCount t.id st.queue = 0 ∧
    (∀ i, openedB i st.queue = true → ¬i = t.id → closedOKB i st.queue = true)
  | none => ∀ i, openedB i st.queue = true → closedOKB i st.queue = true

/-- A sample session used to instantiate universally quantified
theorems at concrete inputs. -/
def sampleSession : SessionS :=
  { started := false, cancelled := false, preflightOk := false,
    kiroDefaultAgent := none, trustAllTools := false, trustTools := none,
    wrap := .auto, verbose := true,
    modes := ⟨"default".data, [⟨"default".data, "default".data, none⟩]⟩,
    models := ⟨"auto".data, [⟨"auto".data, "Auto".data, "auto model".data⟩]⟩ }

/-! ## General lemmas -/

theorem dropPre_self_append (p b : List Char) : dropPre p (p ++ b) = some b := by
  induction p with
  | nil => simp [dropPre]
  | cons c ps ih => simp [dropPre, ih]

theorem containsSub_of_hasPre {p s : List Char} (h : hasPre p s = true) :
    containsSub p s = true := by
  cases s with
  | nil =>
    cases p with
    | nil => simp [containsSub]
    | cons c r => simp [hasPre, dropPre] at h
  | cons c r => simp [containsSub, h]

theorem containsSub_sandwich (p a b : List Char) :
    containsSub p (a ++ p ++ b) = true := by
  induction a with
  | nil =>
    refine containsSub_of_hasPre ?_
    simp [hasPre, dropPre_self_append]
  | cons c a ih =>
    simp only [List.cons_append, containsSub, Bool.or_eq_true]
    exact Or.inr ih

/-! ## Cancellation: frame lemmas -/

theorem sendUpdate_cancelled {st : TurnState} (ev : AgentEvent)
    (h : st.cancelled = true) : sendUpdate ev st = st := by
  simp [sendUpdate, h]

theorem handleLine_cancelled (l : List Char) (st : TurnState) :
    (handleLine l st).cancelled = st.cancelled := by
  unfold handleLine
  cases hm : matchToolStart l with
  | some p =>
    cases p with
    | mk cmd tool =>
      cases ha : st.activeTool <;> simp [sendUpdate] <;> split <;> simp
  | none =>
    cases ha : st.activeTool with
    | some t =>
      by_cases hd : toolDone l <;> simp [hd, sendUpdate] <;> split <;> simp
    | none =>
      by_cases ht : thoughtPre.any (fun p => hasPre p l) <;>
        simp [ht, sendUpdate] <;> split <;> simp

theorem handleLine_queue_cancelled (l : List Char) {st : TurnState}
    (h : st.cancelled = true) : (handleLine l st).queue = st.queue := by
  unfold handleLine
  cases hm : matchToolStart l with
  | some p =>
    cases p with
    | mk cmd tool => cases ha : st.activeTool <;> simp [sendUpdate, h]
  | none =>
    cases ha : st.activeTool with
    | some t => by_cases hd : toolDone l <;> simp [hd, sendUpdate, h]
    | none =>
      by_cases ht : thoughtPre.any (fun p => hasPre p l) <;>
        simp [ht, sendUpdate, h]

theorem feedLines_cancelled (ls : List (List Char)) (st : TurnState) :
    (feedLines ls st).cancelled = st.cancelled := by
  induction ls generalizing st with
  | nil => rfl
  | cons l ls ih => simp [feedLines] at ih ⊢; rw [ih, handleLine_cancelled]

theorem feedLines_queue_cancelled (ls : List (List Char)) {st : TurnState}
    (h : st.cancelled = true) : (feedLines ls st).queue = st.queue := by
  induction ls generalizing st with
  | nil => rfl
  | cons l ls ih =>
    simp [feedLines] at ih ⊢
    rw [ih, handleLine_queue_cancelled l h]
    rw [handleLine_cancelled, h]

theorem handleChunk_cancelled (t : List Char) (st : TurnState) :
    (handleChunk t st).cancelled = st.cancelled := by
  simp [handleChunk, feedLines_cancelled]

theorem handleChunk_queue_cancelled (t : List Char) {st : TurnState}
    (h : st.cancelled = true) : (handleChunk t st).queue = st.queue := by
  simp [handleChunk]
  rw [feedLines_queue_cancelled]
  repeat simp [h]

theorem turnStep_cancelled_stays {st : TurnState} (i : TurnInput)
    (h : st.cancelled = true) : (turnStep st i).cancelled = true := by
  cases i <;> simp [turnStep, handleChunk_cancelled, h]

theorem turnStep_queue_cancelled {st : TurnState} (i : TurnInput)
    (h : st.cancelled = true) : (turnStep st i).queue = st.queue := by
  cases i <;> simp [turnStep, handleChunk_queue_cancelled, h]

theorem foldl_turnStep_cancelled (inputs : List TurnInput) {st : TurnState}
    (h : st.cancelled = true) :
    (inputs.foldl turnStep st).cancelled = true ∧
    (inputs.foldl turnStep st).queue = st.queue := by
  induction inputs generalizing st with
  | nil => exact ⟨h, rfl⟩
  | cons i inputs ih =>
    simp only [List.foldl_cons]
    have h1 := turnStep_cancelled_stays i h
    have h2 := turnStep_queue_cancelled i h
    obtain ⟨a, b⟩ := ih h1
    exact ⟨a, by rw [b, h2]⟩

theorem sendUpdate_cancelled_eq (ev : AgentEvent) (st : TurnState) :
    (sendUpdate ev st).cancelled = st.cancelled := by
  unfold sendUpdate; split <;> rfl

theorem flushLineBuffer_cancelled (st : TurnState) :
    (flushLineBuffer st).cancelled = st.cancelled := by
  unfold flushLineBuffer
  split
  · exact handleLine_cancelled st.lineBuffer st
  · rfl

theorem flushLineBuffer_queue_cancelled {st : TurnState}
    (h : st.cancelled = true) : (flushLineBuffer st).queue = st.queue := by
  unfold flushLineBuffer
  split
  · exact handleLine_queue_cancelled st.lineBuffer h
  · rfl

theorem forceCloseTool_cancelled (e : Option Int) (st : TurnState) :
    (forceCloseTool e st).cancelled = st.cancelled := by
  unfold forceCloseTool
  cases st.activeTool with
  | some t => simp [sendUpdate_cancelled_eq]
  | none => rfl

theorem forceCloseTool_queue_cancelled (e : Option Int) {st : TurnState}
    (h : st.cancelled = true) : (forceCloseTool e st).queue = st.queue := by
  unfold forceCloseTool
  cases st.activeTool with
  | some t => simp [sendUpdate, h]
  | none => rfl

theorem settleStreams_cancelled (e : Option Int) (st : TurnState) :
    (settleStreams e st).cancelled = st.cancelled := by
  unfold settleStreams
  rw [forceCloseTool_cancelled, flushLineBuffer_cancelled]

theorem settleStreams_queue_cancelled (e : Option Int) {st : TurnState}
    (h : st.cancelled = true) : (settleStreams e st).queue = st.queue := by
  unfold settleStreams
  have h2 : (flushLineBuffer st).cancelled = true := by
    rw [flushLineBuffer_cancelled]; exact h
  rw [forceCloseTool_queue_cancelled e h2, flushLineBuffer_queue_cancelled h]

theorem finishTurn_queue_cancelled (e : Option Int) {st : TurnState}
    (h : st.cancelled = true) :
    finishTurn e st = (settleStreams e st, .cancelled) ∧
    ((finishTurn e st).1).queue = st.queue := by
  have hc : (settleStreams e st).cancelled = true := by
    rw [settleStreams_cancelled]; exact h
  constructor
  · simp [finishTurn, hc]
  · simp [finishTurn, hc, settleStreams_queue_cancelled e h]

theorem promptToText_cons (ch : PChunk) (ps : List PChunk) :
    promptToText (ch :: ps) = chunkContribSpec ch ++ promptToText ps := by
  unfold promptToText
  simp only [List.map_cons, List.flatten_cons, List.append_cancel_right_eq]
  cases ch with
  | text t => rfl
  | resourceLink u => rfl
  | resource uri rt => cases rt <;> rfl
  | image u =>
    cases u with
    | none => rfl
    | some v => cases v <;> simp [chunkContribSpec]

/-! ## Claims -/

/-- C3: the scenario transcript — a tool announcement for `ls` via
`shell`, one output line `file.txt`, a completion marker, prose
`Done.`, exit 0 — produces exactly one `tool_call` start of kind
`execute` titled `shell: ls`, one in-progress update whose accumulated
output is `file.txt`, one completed update, one text event `Done.\n`,
and the turn ends with `end_turn`. -/
theorem claim_c3 :
    runTurn ((kiroRun scenarioChunks).map TurnInput.chunk) (some 0)
      = ({ cancelled := false, sentAny := true, toolSeq := 1, activeTool := none,
           lineBuffer := [],
           queue := [.toolCall 1 "shell: ls".data .execute "ls".data,
                     .toolCallUpdate 1 (some .inProgress) ["file.txt".data],
                     .toolCallUpdate 1 (some .completed) ["file.txt".data],
                     .messageChunk "Done.\n".data] }, .endTurn) ∧
    containsSub "shell".data "shell: ls".data = true ∧
    containsSub "ls".data "shell: ls".data = true := by decide

/-- C5: once a `cancel` notification arrived, the turn enqueues no
further updates — processing any further subprocess output leaves the
send queue exactly as it was at cancellation time (already-enqueued
updates still drain as the queue's contents). -/
theorem claim_c5 (pre post : List TurnInput) (e : Option Int) :
    ((runTurn (pre ++ TurnInput.cancel :: post) e).1).queue
      = ((runTurn (pre ++ [TurnInput.cancel]) e).1).queue := by
  unfold runTurn runTurnState
  rw [List.foldl_append, List.foldl_append]
  have hc : (turnStep (pre.foldl turnStep initTurn) TurnInput.cancel).cancelled
      = true := rfl
  have L := foldl_turnStep_cancelled post hc
  simp only [List.foldl_cons, List.foldl_nil]
  rw [(finishTurn_queue_cancelled e L.1).2,
      (finishTurn_queue_cancelled e hc).2, L.2]

/-- C6: on a non-zero (or missing) exit code in a non-cancelled turn:
if nothing was ever sent, `prompt` raises an internal error whose
message contains the exit code; otherwise it appends a visible notice
containing the exit code and ends the turn normally. -/
theorem claim_c6 (st : TurnState) (e : Option Int) (he : ¬e = some 0)
    (hc : (settleStreams e st).cancelled = false) :
    ((settleStreams e st).sentAny = false →
      finishTurn e st
        = (settleStreams e st,
           .internalError ("kiro-cli exited with code ".data ++ intStr e)) ∧
      containsSub (intStr e)
        ("kiro-cli exited with code ".data ++ intStr e) = true) ∧
    ((settleStreams e st).sentAny = true →
      (finishTurn e st).2 = .endTurn ∧
      ((finishTurn e st).1).queue
        = (settleStreams e st).queue ++
          [.messageChunk
            ('\n' :: "(kiro-cli 退出码: ".data ++ intStr e ++ ")\n".data)] ∧
      containsSub (intStr e)
        ('\n' :: "(kiro-cli 退出码: ".data ++ intStr e ++ ")\n".data) = true) := by
  constructor
  · intro hs
    refine ⟨?_, ?_⟩
    · unfold finishTurn
      simp [hc, hs, he]
    · simpa using containsSub_sandwich (intStr e)
        ("kiro-cli exited with code ".data) []
  · intro hs
    refine ⟨?_, ?_, ?_⟩
    · unfold finishTurn
      simp [hc, hs, he]
    · unfold finishTurn
      simp [hc, hs, he, sendUpdate]
    · simpa using containsSub_sandwich (intStr e)
        ('\n' :: "(kiro-cli 退出码: ".data) (")\n".data)

/-- Witness for C6: with exit code 2 and no output, the turn fails with
an internal error whose message contains `2`; with one prose line
already streamed, the turn ends normally. -/
theorem claim_c6_witness :
    (finishTurn (some 2) initTurn
      = (settleStreams (some 2) initTurn,
         .internalError ("kiro-cli exited with code ".data ++ intStr (some 2))) ∧
     containsSub (intStr (some 2))
       ("kiro-cli exited with code ".data ++ intStr (some 2)) = true) ∧
    ((finishTurn (some 2) (runTurnState [TurnInput.chunk "hi\n".data])).2
      = .endTurn) := by
  refine ⟨(claim_c6 initTurn (some 2) (by decide) (by decide)).1 (by decide), ?_⟩
  exact (((claim_c6 (runTurnState [TurnInput.chunk "hi\n".data]) (some 2)
    (by decide) (by decide)).2 (by decide)).1)

/-- C7: `setSessionMode` with a mode id absent from the session's
available modes throws `Invalid mode` and leaves the session unchanged;
`setSessionModel` with an absent model id throws `Invalid model` and
leaves the session unchanged. -/
theorem claim_c7 (s : SessionS) (modeId modelId : List Char) :
    (s.modes.availableModes.any (fun m => m.id = modeId) = false →
      setSessionMode s modeId = .error "Invalid mode".data ∧
      applySetSessionMode s modeId = s) ∧
    (s.models.availableModels.any (fun m => m.modelId = modelId) = false →
      setSessionModel s modelId = .error "Invalid model".data ∧
      applySetSessionModel s modelId = s) := by
  constructor
  · intro h
    have h1 : setSessionMode s modeId = .error "Invalid mode".data := by
      unfold setSessionMode
      simp [h]
    exact ⟨h1, by unfold applySetSessionMode; rw [h1]⟩
  · intro h
    have h1 : setSessionModel s modelId = .error "Invalid model".data := by
      unfold setSessionModel
      simp [h]
    exact ⟨h1, by unfold applySetSessionModel; rw [h1]⟩

/-- Witness for C7 at a concrete session and an absent id. -/
theorem claim_c7_witness :
    (setSessionMode sampleSession "nope".data = .error "Invalid mode".data ∧
      applySetSessionMode sampleSession "nope".data = sampleSession) ∧
    (setSessionModel sampleSession "nope".data = .error "Invalid model".data ∧
      applySetSessionModel sampleSession "nope".data = sampleSession) :=
  ⟨(claim_c7 sampleSession "nope".data "nope".data).1 (by decide),
   (claim_c7 sampleSession "nope".data "nope".data).2 (by decide)⟩

/-- C10: `promptToText` equals the in-order concatenation of the
specified per-chunk contributions, and a prompt made only of text-less
resources and uri-less images yields the empty string. -/
theorem claim_c10 (ps : List PChunk) :
    promptToText ps = (ps.map chunkContribSpec).flatten ∧
    (ps.all voidChunk = true → promptToText ps = []) := by
  have main : ∀ qs : List PChunk,
      promptToText qs = (qs.map chunkContribSpec).flatten := by
    intro qs
    induction qs with
    | nil => rfl
    | cons ch qs ih =>
      rw [promptToText_cons, ih, List.map_cons, List.flatten_cons]
  refine ⟨main ps, ?_⟩
  intro h
  induction ps with
  | nil => rfl
  | cons ch ps ih =>
    simp only [List.all_cons, Bool.and_eq_true] at h
    rw [promptToText_cons, ih h.2]
    cases ch with
    | text t => simp [voidChunk] at h
    | resourceLink u => simp [voidChunk] at h
    | resource uri rt =>
      cases rt with
      | none => rfl
      | some t => simp [voidChunk] at h
    | image u =>
      cases u with
      | none => rfl
      | some v => simp [voidChunk] at h

/-- Witness for C10: a prompt of one blob resource and one data image
flattens to the empty string. -/
theorem claim_c10_witness :
    promptToText [PChunk.resource "file:///b".data none, PChunk.image none]
      = [] :=
  (claim_c10 [PChunk.resource "file:///b".data none, PChunk.image none]).2
    (by decide)

/-! ## C9: `stripAnsi` -/

theorem ansiMatch_none_of_noEsc {c : Char} (rest : List Char)
    (h : noEsc c = true) : ansiMatch (c :: rest) = none := by
  unfold ansiMatch
  unfold noEsc at h
  simp only [Bool.not_eq_true', Bool.or_eq_false_iff, decide_eq_false_iff_not] at h
  simp [h.1, h.2]

theorem stripGo_skip (k : Nat) (s : List Char) :
    stripGo k s = stripGo 0 (s.drop k) := by
  induction s generalizing k with
  | nil => cases k <;> rfl
  | cons c rest ih =>
    cases k with
    | zero => rfl
    | succ k => simpa [stripGo] using ih k

theorem stripAnsi_id_of_noEsc {s : List Char}
    (h : ∀ c ∈ s, noEsc c = true) : stripAnsi s = s := by
  induction s with
  | nil => rfl
  | cons c rest ih =>
    unfold stripAnsi at ih ⊢
    rw [show stripGo 0 (c :: rest)
        = (match ansiMatch (c :: rest) with
           | some n => stripGo (n - 1) rest
           | none => c :: stripGo 0 rest) from rfl,
      ansiMatch_none_of_noEsc rest (h c (List.mem_cons_self c rest))]
    exact congrArg (c :: ·) (ih fun x hx => h x (List.mem_cons_of_mem c hx))

theorem stripDecomp_bounded :
    ∀ (n : Nat) (s : List Char), s.length ≤ n → StripDecomp s (stripAnsi s) := by
  intro n
  induction n with
  | zero =>
    intro s hs
    have h0 : s = [] := List.length_eq_zero.mp (Nat.le_zero.mp hs)
    rw [h0]
    exact .nil
  | succ n ih =>
    intro s hs
    cases s with
    | nil => exact .nil
    | cons c rest =>
      have hrest : rest.length ≤ n := by
        simp only [List.length_cons] at hs
        omega
      cases hm : ansiMatch (c :: rest) with
      | none =>
        have he : stripAnsi (c :: rest) = c :: stripAnsi rest := by
          unfold stripAnsi
          rw [show stripGo 0 (c :: rest)
              = (match ansiMatch (c :: rest) with
                 | some m => stripGo (m - 1) rest
                 | none => c :: stripGo 0 rest) from rfl, hm]
        rw [he]
        exact .keep hm (ih rest hrest)
      | some m =>
        have he : stripAnsi (c :: rest) = stripAnsi (rest.drop (m - 1)) := by
          unfold stripAnsi
          rw [show stripGo 0 (c :: rest)
              = (match ansiMatch (c :: rest) with
                 | some m => stripGo (m - 1) rest
                 | none => c :: stripGo 0 rest) from rfl, hm]
          exact stripGo_skip (m - 1) rest
        rw [he]
        refine .strip hm (ih (rest.drop (m - 1)) ?_)
        have hd : (rest.drop (m - 1)).length ≤ rest.length := by
          simp [List.length_drop]
        omega

/-- C9: `stripAnsi` is pure; on input free of the escape and CSI
introducer characters it is the identity (arbitrary Unicode included);
and in general its output is obtained from the input by removing
exactly the recognized `ANSI_PATTERN` matches found by the scan. -/
theorem claim_c9 :
    (∀ s : List Char, (∀ c ∈ s, noEsc c = true) → stripAnsi s = s) ∧
    (∀ s : List Char, StripDecomp s (stripAnsi s)) :=
  ⟨fun _ h => stripAnsi_id_of_noEsc h,
   fun s => stripDecomp_bounded s.length s (Nat.le_refl _)⟩

/-- Witness for C9: a Unicode string without escape characters is
returned unchanged. -/
theorem claim_c9_witness : stripAnsi "héllo ✓ wörld".data = "héllo ✓ wörld".data :=
  claim_c9.1 "héllo ✓ wörld".data (by decide)


theorem splitNL_crlf (rest : List Char) :
    splitNL ('\r' :: '\n' :: rest) = [] :: splitNL rest := rfl

theorem splitNL_nl (rest : List Char) :
    splitNL ('\n' :: rest) = [] :: splitNL rest := rfl

theorem splitNL_cr (rest : List Char) (h : ∀ r2, ¬rest = '\n' :: r2) :
    splitNL ('\r' :: rest) = [] :: splitNL rest := by
  rw [splitNL.eq_def]
  split <;> simp_all
  rename_i hcr hnl heq
  exact absurd heq.1.symm hcr

theorem splitNL_cons_eq (c : Char) (rest : List Char) (h1 : ¬c = '\r')
    (h2 : ¬c = '\n') :
    splitNL (c :: rest)
      = match splitNL rest with
        | [] => [[c]]
        | h :: t => (c :: h) :: t := by
  rw [splitNL.eq_def]
  split <;> simp_all

theorem splitNL_ne_nil (s : List Char) : splitNL s ≠ [] := by
  induction s using splitNL.induct with
  | case1 => simp [splitNL]
  | case2 rest ih => rw [splitNL_crlf]; simp
  | case3 rest hx ih =>
    rw [splitNL_cr rest (fun r2 hr => hx r2 hr)]
    simp
  | case4 rest ih => rw [splitNL_nl]; simp
  | case5 c rest hx1 hx2 hx3 hs ih =>
    rw [splitNL_cons_eq c rest (fun h => hx2 h) (fun h => hx3 h), hs]
    simp
  | case6 c rest hx1 hx2 hx3 h t hs ih =>
    rw [splitNL_cons_eq c rest (fun h => hx2 h) (fun h => hx3 h), hs]
    simp

theorem splitNL_mem {s : List Char} :
    ∀ l ∈ splitNL s, ∀ c ∈ l, c ∈ s := by
  induction s using splitNL.induct with
  | case1 =>
    intro l hl c hc
    simp [splitNL] at hl
    simp [hl] at hc
  | case2 rest ih =>
    rw [splitNL_crlf]
    intro l hl c hc
    rcases List.mem_cons.mp hl with h | h
    · simp [h] at hc
    · simp [ih l h c hc]
  | case3 rest hx ih =>
    rw [splitNL_cr rest (fun r2 hr => hx r2 hr)]
    intro l hl c hc
    rcases List.mem_cons.mp hl with h | h
    · simp [h] at hc
    · simp [ih l h c hc]
  | case4 rest ih =>
    rw [splitNL_nl]
    intro l hl c hc
    rcases List.mem_cons.mp hl with h | h
    · simp [h] at hc
    · simp [ih l h c hc]
  | case5 c0 rest hx1 hx2 hx3 hs ih =>
    rw [splitNL_cons_eq c0 rest (fun h => hx2 h) (fun h => hx3 h), hs]
    intro l hl c hc
    rcases List.mem_cons.mp hl with h | h
    · rw [h] at hc
      rcases List.mem_cons.mp hc with h2 | h2
      · simp [h2]
      · simp at h2
    · simp at h
  | case6 c0 rest hx1 hx2 hx3 hh tt hs ih =>
    rw [splitNL_cons_eq c0 rest (fun h => hx2 h) (fun h => hx3 h), hs]
    intro l hl c hc
    rcases List.mem_cons.mp hl with h | h
    · rw [h] at hc
      rcases List.mem_cons.mp hc with h2 | h2
      · simp [h2]
      · have : c ∈ rest := ih hh (by rw [hs]; exact List.mem_cons_self _ _) c h2
        simp [this]
    · have : c ∈ rest := ih l (by rw [hs]; exact List.mem_cons_of_mem _ h) c hc
      simp [this]

theorem splitNL_no_newline {s : List Char} :
    ∀ l ∈ splitNL s, ∀ c ∈ l, ¬c = '\n' ∧ ¬c = '\r' := by
  induction s using splitNL.induct with
  | case1 =>
    intro l hl c hc
    simp [splitNL] at hl
    simp [hl] at hc
  | case2 rest ih =>
    rw [splitNL_crlf]
    intro l hl c hc
    rcases List.mem_cons.mp hl with h | h
    · simp [h] at hc
    · exact ih l h c hc
  | case3 rest hx ih =>
    rw [splitNL_cr rest (fun r2 hr => hx r2 hr)]
    intro l hl c hc
    rcases List.mem_cons.mp hl with h | h
    · simp [h] at hc
    · exact ih l h c hc
  | case4 rest ih =>
    rw [splitNL_nl]
    intro l hl c hc
    rcases List.mem_cons.mp hl with h | h
    · simp [h] at hc
    · exact ih l h c hc
  | case5 c0 rest hx1 hx2 hx3 hs ih =>
    rw [splitNL_cons_eq c0 rest (fun h => hx2 h) (fun h => hx3 h), hs]
    intro l hl c hc
    rcases List.mem_cons.mp hl with h | h
    · rw [h] at hc
      rcases List.mem_cons.mp hc with h2 | h2
      · exact h2 ▸ ⟨fun h => hx3 h, fun h => hx2 h⟩
      · simp at h2
    · simp at h
  | case6 c0 rest hx1 hx2 hx3 hh tt hs ih =>
    rw [splitNL_cons_eq c0 rest (fun h => hx2 h) (fun h => hx3 h), hs]
    intro l hl c hc
    rcases List.mem_cons.mp hl with h | h
    · rw [h] at hc
      rcases List.mem_cons.mp hc with h2 | h2
      · exact h2 ▸ ⟨fun h => hx3 h, fun h => hx2 h⟩
      · exact ih hh (by rw [hs]; exact List.mem_cons_self _ _) c h2
    · exact ih l (by rw [hs]; exact List.mem_cons_of_mem _ h) c hc

theorem getLastD_mem {α : Type} (l : List α) (d : α) (h : ¬l = []) :
    l.getLastD d ∈ l := by
  rw [List.getLastD_eq_getLast?]
  cases hg : l.getLast? with
  | none => exact absurd (List.getLast?_eq_none_iff.mp hg) h
  | some a => simpa using List.mem_of_getLast?_eq_some hg

theorem getLastD_irrel {α : Type} (l : List α) (a b : α) (h : ¬l = []) :
    l.getLastD a = l.getLastD b := by
  rw [List.getLastD_eq_getLast?, List.getLastD_eq_getLast?]
  cases hg : l.getLast? with
  | none => exact absurd (List.getLast?_eq_none_iff.mp hg) h
  | some x => rfl

theorem splitP_nil : splitP [] = ([], []) := rfl

theorem splitP_crlf (s : List Char) :
    splitP ('\r' :: '\n' :: s) = ([] :: (splitP s).1, (splitP s).2) := by
  unfold splitP
  rw [splitNL_crlf]
  cases hs : splitNL s with
  | nil => exact absurd hs (splitNL_ne_nil s)
  | cons h t => simp [List.getLastD_cons]

theorem splitP_nl (s : List Char) :
    splitP ('\n' :: s) = ([] :: (splitP s).1, (splitP s).2) := by
  unfold splitP
  rw [splitNL_nl]
  cases hs : splitNL s with
  | nil => exact absurd hs (splitNL_ne_nil s)
  | cons h t => simp [List.getLastD_cons]

theorem splitP_cr (s : List Char) (h : ∀ r2, ¬s = '\n' :: r2) :
    splitP ('\r' :: s) = ([] :: (splitP s).1, (splitP s).2) := by
  unfold splitP
  rw [splitNL_cr s h]
  cases hs : splitNL s with
  | nil => exact absurd hs (splitNL_ne_nil s)
  | cons hh t => simp [List.getLastD_cons]

theorem splitP_cons_nil {c : Char} {s : List Char} (h1 : ¬c = '\r')
    (h2 : ¬c = '\n') (h3 : (splitP s).1 = []) :
    splitP (c :: s) = ([], c :: (splitP s).2) := by
  unfold splitP at h3 ⊢
  rw [splitNL_cons_eq c s h1 h2]
  cases hs : splitNL s with
  | nil => exact absurd hs (splitNL_ne_nil s)
  | cons hh t =>
    rw [hs] at h3
    cases t with
    | nil => simp_all
    | cons x xs => simp_all

theorem splitP_cons_cons {c : Char} {s : List Char} {l : List Char}
    {r : List (List Char)} (h1 : ¬c = '\r') (h2 : ¬c = '\n')
    (h3 : (splitP s).1 = l :: r) :
    splitP (c :: s) = ((c :: l) :: r, (splitP s).2) := by
  unfold splitP at h3 ⊢
  rw [splitNL_cons_eq c s h1 h2]
  cases hs : splitNL s with
  | nil => exact absurd hs (splitNL_ne_nil s)
  | cons hh t =>
    rw [hs] at h3
    cases t with
    | nil => simp_all
    | cons x xs =>
      simp only [List.dropLast_cons₂] at h3 ⊢
      obtain ⟨he, ht⟩ := List.cons.inj h3
      subst he
      simp only [List.getLastD_cons, ht]

theorem splitNL_of_no_newline {s : List Char}
    (h : ∀ c ∈ s, ¬c = '\n' ∧ ¬c = '\r') : splitNL s = [s] := by
  induction s with
  | nil => rfl
  | cons c rest ih =>
    have hc := h c (List.mem_cons_self c rest)
    rw [splitNL_cons_eq c rest hc.2 hc.1,
      ih (fun x hx => h x (List.mem_cons_of_mem c hx))]

theorem splitP_of_no_newline {s : List Char}
    (h : ∀ c ∈ s, ¬c = '\n' ∧ ¬c = '\r') : splitP s = ([], s) := by
  unfold splitP
  rw [splitNL_of_no_newline h]
  rfl

theorem no_newline_of_splitP_nil {s : List Char}
    (h : (splitP s).1 = []) : ∀ c ∈ s, ¬c = '\n' ∧ ¬c = '\r' := by
  induction s using splitNL.induct with
  | case1 => intro c hc; simp at hc
  | case2 rest ih =>
    rw [splitP_crlf] at h
    simp at h
  | case3 rest hx ih =>
    rw [splitP_cr rest (fun r2 hr => hx r2 hr)] at h
    simp at h
  | case4 rest ih =>
    rw [splitP_nl] at h
    simp at h
  | case5 c0 rest hx1 hx2 hx3 hs ih =>
    intro c hc
    have hl : (splitP rest).1 = [] := by
      unfold splitP
      rw [hs]
      rfl
    rcases List.mem_cons.mp hc with h2 | h2
    · exact h2 ▸ ⟨fun hh => hx3 hh, fun hh => hx2 hh⟩
    · exact ih hl c h2
  | case6 c0 rest hx1 hx2 hx3 hh tt hs ih =>
    intro c hc
    have hsp : splitNL (c0 :: rest) = (c0 :: hh) :: tt := by
      rw [splitNL_cons_eq c0 rest (fun hx => hx2 hx) (fun hx => hx3 hx), hs]
    unfold splitP at h
    rw [hsp] at h
    cases tt with
    | cons x xs => simp at h
    | nil =>
      have hl : (splitP rest).1 = [] := by
        unfold splitP
        rw [hs]
        rfl
      rcases List.mem_cons.mp hc with h2 | h2
      · exact h2 ▸ ⟨fun hhh => hx3 hhh, fun hhh => hx2 hhh⟩
      · exact ih hl c h2

theorem endsNL_cons {c : Char} {rest : List Char} (h : ¬rest = []) :
    endsNL (c :: rest) = endsNL rest := by
  unfold endsNL
  cases rest with
  | nil => exact absurd rfl h
  | cons a r => rw [List.getLast?_cons_cons]

theorem endsNL_false_of_no_newline {s : List Char}
    (h : ∀ c ∈ s, ¬c = '\n' ∧ ¬c = '\r') : endsNL s = false := by
  unfold endsNL
  cases hg : s.getLast? with
  | none => rfl
  | some x =>
    have hx := h x (List.mem_of_getLast?_eq_some hg)
    simp [hx.1, hx.2]

theorem splitP_frag_of_endsNL {s : List Char} (h : endsNL s = true) :
    (splitP s).2 = [] := by
  induction s using splitNL.induct with
  | case1 => simp [endsNL] at h
  | case2 rest ih =>
    rw [splitP_crlf]
    dsimp only
    by_cases hr : rest = []
    · rw [hr]
      rfl
    · apply ih
      rw [endsNL_cons (by simp), endsNL_cons hr] at h
      exact h
  | case3 rest hx ih =>
    rw [splitP_cr rest (fun r2 hr => hx r2 hr)]
    dsimp only
    by_cases hr : rest = []
    · rw [hr]
      rfl
    · apply ih
      rw [endsNL_cons hr] at h
      exact h
  | case4 rest ih =>
    rw [splitP_nl]
    dsimp only
    by_cases hr : rest = []
    · rw [hr]
      rfl
    · apply ih
      rw [endsNL_cons hr] at h
      exact h
  | case5 c0 rest hx1 hx2 hx3 hs ih =>
    exact absurd hs (splitNL_ne_nil rest)
  | case6 c0 rest hx1 hx2 hx3 hh tt hs ih =>
    have hsp : splitNL (c0 :: rest) = (c0 :: hh) :: tt := by
      rw [splitNL_cons_eq c0 rest (fun hx => hx2 hx) (fun hx => hx3 hx), hs]
    by_cases hr : rest = []
    · rw [hr] at h
      unfold endsNL at h
      simp only [List.getLast?_singleton] at h
      rcases Bool.or_eq_true_iff.mp h with h2 | h2
      · exact absurd (by simpa using h2) (fun hq => hx3 hq)
      · exact absurd (by simpa using h2) (fun hq => hx2 hq)
    · have hrest : endsNL rest = true := by
        rw [endsNL_cons hr] at h
        exact h
      cases tt with
      | nil =>
        exfalso
        have hl : (splitP rest).1 = [] := by
          unfold splitP
          rw [hs]
          rfl
        have hf := endsNL_false_of_no_newline (no_newline_of_splitP_nil hl)
        rw [hf] at hrest
        exact Bool.false_ne_true hrest
      | cons x xs =>
        unfold splitP
        rw [hsp]
        have h2 := ih hrest
        unfold splitP at h2
        rw [hs] at h2
        simpa [List.getLastD_cons] using h2

theorem splitP_append (a b : List Char) (ha : ∀ c ∈ a, ¬c = '\r') :
    splitP (a ++ b)
      = ((splitP a).1 ++ (splitP ((splitP a).2 ++ b)).1,
         (splitP ((splitP a).2 ++ b)).2) := by
  induction a with
  | nil => simp [splitP_nil]
  | cons c a ih =>
    have hc : ¬c = '\r' := ha c (List.mem_cons_self c a)
    have ha2 : ∀ x ∈ a, ¬x = '\r' := fun x hx => ha x (List.mem_cons_of_mem c hx)
    have ihe := ih ha2
    have ih1 : (splitP (a ++ b)).1
        = (splitP a).1 ++ (splitP ((splitP a).2 ++ b)).1 := by rw [ihe]
    have ih2 : (splitP (a ++ b)).2 = (splitP ((splitP a).2 ++ b)).2 := by
      rw [ihe]
    rw [List.cons_append]
    by_cases hn : c = '\n'
    · subst hn
      rw [splitP_nl, splitP_nl, ih1, ih2]
      simp
    · cases hP : (splitP a).1 with
      | nil =>
        have hca : splitP (c :: a) = ([], c :: (splitP a).2) :=
          splitP_cons_nil hc hn hP
        cases hQ : (splitP ((splitP a).2 ++ b)).1 with
        | nil =>
          have h1 : (splitP (a ++ b)).1 = [] := by
            rw [ih1, hP, hQ]
            rfl
          have hR : splitP (c :: ((splitP a).2 ++ b))
              = ([], c :: (splitP ((splitP a).2 ++ b)).2) :=
            splitP_cons_nil hc hn hQ
          rw [splitP_cons_nil hc hn h1, hca, ih2]
          dsimp only
          rw [List.cons_append, hR]
          simp
        | cons l r =>
          have h1 : (splitP (a ++ b)).1 = l :: r := by
            rw [ih1, hP, hQ]
            rfl
          have hR : splitP (c :: ((splitP a).2 ++ b))
              = ((c :: l) :: r, (splitP ((splitP a).2 ++ b)).2) :=
            splitP_cons_cons hc hn hQ
          rw [splitP_cons_cons hc hn h1, hca, ih2]
          dsimp only
          rw [List.cons_append, hR]
          simp
      | cons l r =>
        have hca : splitP (c :: a) = ((c :: l) :: r, (splitP a).2) :=
          splitP_cons_cons hc hn hP
        have h1 : (splitP (a ++ b)).1 = l :: (r ++ (splitP ((splitP a).2 ++ b)).1) := by
          rw [ih1, hP]
          rfl
        rw [splitP_cons_cons hc hn h1, hca, ih2]
        simp

theorem splitP_frag_no_newline (s : List Char) :
    ∀ c ∈ (splitP s).2, ¬c = '\n' ∧ ¬c = '\r' := by
  intro c hc
  unfold splitP at hc
  exact splitNL_no_newline _
    (getLastD_mem _ _ (splitNL_ne_nil s)) c hc

theorem splitP_frag_mem (s : List Char) : ∀ c ∈ (splitP s).2, c ∈ s := by
  intro c hc
  unfold splitP at hc
  exact splitNL_mem _ (getLastD_mem _ _ (splitNL_ne_nil s)) c hc

theorem splitP_lines_mem (s : List Char) :
    ∀ l ∈ (splitP s).1, ∀ c ∈ l, c ∈ s := by
  intro l hl
  unfold splitP at hl
  exact splitNL_mem l (List.dropLast_subset _ hl)

theorem splitP_rejoin (s : List Char) (h : ∀ c ∈ s, ¬c = '\r') :
    ((splitP s).1.map (fun l => l ++ ['\n'])).flatten ++ (splitP s).2 = s := by
  induction s with
  | nil => rfl
  | cons c rest ih =>
    have hc : ¬c = '\r' := h c (List.mem_cons_self c rest)
    have h2 : ∀ x ∈ rest, ¬x = '\r' :=
      fun x hx => h x (List.mem_cons_of_mem c hx)
    by_cases hn : c = '\n'
    · subst hn
      rw [splitP_nl]
      dsimp only
      simp [ih h2]
    · cases hP : (splitP rest).1 with
      | nil =>
        rw [splitP_cons_nil hc hn hP]
        dsimp only
        have hi := ih h2
        rw [hP] at hi
        simp only [List.map_nil, List.flatten_nil, List.nil_append] at hi ⊢
        rw [hi]
      | cons l r =>
        rw [splitP_cons_cons hc hn hP]
        dsimp only
        have hi := ih h2
        rw [hP] at hi
        simp only [List.map_cons, List.flatten_cons, List.cons_append,
          List.append_assoc, List.singleton_append] at hi ⊢
        exact congrArg (c :: ·) hi

theorem processChunk_eq_splitP (raw b : List Char) (h : stripAnsi raw = raw) :
    processChunk raw false b
      = ((splitP (b ++ raw)).1.map (fun l => l ++ ['\n']),
         (splitP (b ++ raw)).2) := by
  simp only [processChunk, h, Bool.false_and, Bool.false_eq_true, if_false]
  by_cases he : endsNL (b ++ raw) = true
  · rw [if_pos he, splitP_frag_of_endsNL he]
    rfl
  · rw [if_neg he]
    rfl

theorem processChunk_final_eq (b : List Char)
    (h : ∀ c ∈ b, ¬c = '\n' ∧ ¬c = '\r') :
    processChunk [] true b = ((if b.isEmpty then [] else [b]), []) := by
  have hstrip : stripAnsi ([] : List Char) = [] := rfl
  simp only [processChunk, hstrip, List.append_nil]
  rw [splitNL_of_no_newline h, endsNL_false_of_no_newline h]
  cases b with
  | nil => rfl
  | cons x xs => rfl

theorem kiroFold_eq (chunks : List (List Char)) :
    ∀ (evs : List (List Char)) (b : List Char),
    (∀ ch ∈ chunks, stripAnsi ch = ch) →
    (∀ ch ∈ chunks, ∀ c ∈ ch, ¬c = '\r') →
    (∀ c ∈ b, ¬c = '\n' ∧ ¬c = '\r') →
    chunks.foldl kiroStep (evs, b)
      = (evs ++ (splitP (b ++ chunks.flatten)).1.map (fun l => l ++ ['\n']),
         (splitP (b ++ chunks.flatten)).2) := by
  induction chunks with
  | nil =>
    intro evs b _ _ hb
    simp only [List.foldl_nil, List.flatten_nil, List.append_nil]
    rw [splitP_of_no_newline hb]
    simp
  | cons ch chunks ih =>
    intro evs b h1 h2 hb
    simp only [List.foldl_cons, List.flatten_cons]
    rw [show kiroStep (evs, b) ch
        = (evs ++ (processChunk ch false b).1, (processChunk ch false b).2)
      from rfl]
    rw [processChunk_eq_splitP ch b (h1 ch (List.mem_cons_self ch chunks))]
    dsimp only
    rw [ih (evs ++ (splitP (b ++ ch)).1.map (fun l => l ++ ['\n']))
        ((splitP (b ++ ch)).2)
        (fun x hx => h1 x (List.mem_cons_of_mem ch hx))
        (fun x hx => h2 x (List.mem_cons_of_mem ch hx))
        (splitP_frag_no_newline (b ++ ch))]
    have hfree : ∀ c ∈ b ++ ch, ¬c = '\r' := by
      intro c hc
      rcases List.mem_append.mp hc with hcb | hcc
      · exact (hb c hcb).2
      · exact h2 ch (List.mem_cons_self ch chunks) c hcc
    have happ := splitP_append (b ++ ch) chunks.flatten hfree
    rw [show b ++ (ch ++ chunks.flatten) = (b ++ ch) ++ chunks.flatten from
        (List.append_assoc b ch chunks.flatten).symm, happ]
    simp [List.map_append, List.append_assoc]

theorem kiroRun_eq (chunks : List (List Char))
    (h1 : ∀ ch ∈ chunks, stripAnsi ch = ch)
    (h2 : ∀ ch ∈ chunks, ∀ c ∈ ch, ¬c = '\r') :
    kiroRun chunks
      = (splitP chunks.flatten).1.map (fun l => l ++ ['\n'])
        ++ (if (splitP chunks.flatten).2.isEmpty then []
            else [(splitP chunks.flatten).2]) := by
  unfold kiroRun
  rw [kiroFold_eq chunks [] [] h1 h2 (by simp)]
  dsimp only
  rw [List.nil_append, processChunk_final_eq _ (splitP_frag_no_newline _)]
  simp

theorem handleLine_lineBuffer (l : List Char) (st : TurnState) :
    (handleLine l st).lineBuffer = st.lineBuffer := by
  unfold handleLine
  cases hm : matchToolStart l with
  | some p =>
    cases p with
    | mk cmd tool =>
      cases ha : st.activeTool <;> simp [sendUpdate] <;> split <;> simp
  | none =>
    cases ha : st.activeTool with
    | some t =>
      by_cases hd : toolDone l <;> simp [hd, sendUpdate] <;> split <;> simp
    | none =>
      by_cases ht : thoughtPre.any (fun p => hasPre p l) <;>
        simp [ht, sendUpdate] <;> split <;> simp

theorem handleLine_set_lineBuffer (l : List Char) (st : TurnState)
    (x : List Char) :
    handleLine l { st with lineBuffer := x }
      = { handleLine l st with lineBuffer := x } := by
  unfold handleLine
  cases hm : matchToolStart l with
  | some p =>
    cases p with
    | mk cmd tool =>
      cases ha : st.activeTool <;> simp [sendUpdate, ha] <;> split <;>
        simp [ha]
  | none =>
    cases ha : st.activeTool with
    | some t =>
      by_cases hd : toolDone l <;> simp [hd, sendUpdate, ha] <;> split <;>
        simp [ha]
    | none =>
      by_cases ht : thoughtPre.any (fun p => hasPre p l) <;>
        simp [ht, sendUpdate, ha] <;> split <;> simp [ha]

theorem feedLines_set_lineBuffer (ls : List (List Char)) (st : TurnState)
    (x : List Char) :
    feedLines ls { st with lineBuffer := x }
      = { feedLines ls st with lineBuffer := x } := by
  induction ls generalizing st with
  | nil => rfl
  | cons l ls ih =>
    show feedLines ls (handleLine l { st with lineBuffer := x })
      = { feedLines ls (handleLine l st) with lineBuffer := x }
    rw [handleLine_set_lineBuffer, ih]

theorem handleChunk_eq (t : List Char) (st : TurnState) :
    handleChunk t st
      = { feedLines (splitP (st.lineBuffer ++ t)).1 st with
          lineBuffer := (splitP (st.lineBuffer ++ t)).2 } := by
  unfold handleChunk
  rw [feedLines_set_lineBuffer]
  rfl

theorem feedLines_lineBuffer (ls : List (List Char)) (st : TurnState) :
    (feedLines ls st).lineBuffer = st.lineBuffer := by
  induction ls generalizing st with
  | nil => rfl
  | cons l ls ih =>
    show (feedLines ls (handleLine l st)).lineBuffer = st.lineBuffer
    rw [ih, handleLine_lineBuffer]

theorem feedLines_append (a b : List (List Char)) (st : TurnState) :
    feedLines (a ++ b) st = feedLines b (feedLines a st) := by
  unfold feedLines
  exact List.foldl_append _ _ _ _

theorem handleChunkFold_eq (ts : List (List Char)) :
    ∀ st : TurnState,
    (∀ x ∈ ts, ∀ c ∈ x, ¬c = '\r') →
    (∀ c ∈ st.lineBuffer, ¬c = '\n' ∧ ¬c = '\r') →
    ts.foldl (fun s t => handleChunk t s) st
      = feedLines (splitP (st.lineBuffer ++ ts.flatten)).1
          { st with lineBuffer := (splitP (st.lineBuffer ++ ts.flatten)).2 } := by
  induction ts with
  | nil =>
    intro st _ hb
    simp only [List.foldl_nil, List.flatten_nil, List.append_nil]
    rw [splitP_of_no_newline hb]
    rfl
  | cons t ts ih =>
    intro st hts hb
    simp only [List.foldl_cons, List.flatten_cons]
    rw [show handleChunk t st
        = feedLines (splitP (st.lineBuffer ++ t)).1
            { st with lineBuffer := (splitP (st.lineBuffer ++ t)).2 } from rfl]
    rw [ih _ (fun x hx => hts x (List.mem_cons_of_mem t hx))
        (by
          rw [feedLines_lineBuffer]
          exact fun c hc => splitP_frag_no_newline (st.lineBuffer ++ t) c hc)]
    rw [feedLines_lineBuffer]
    have hfree : ∀ c ∈ st.lineBuffer ++ t, ¬c = '\r' := by
      intro c hc
      rcases List.mem_append.mp hc with hcb | hcc
      · exact (hb c hcb).2
      · exact hts t (List.mem_cons_self t ts) c hcc
    have happ := splitP_append (st.lineBuffer ++ t) ts.flatten hfree
    rw [show st.lineBuffer ++ (t ++ ts.flatten)
        = (st.lineBuffer ++ t) ++ ts.flatten from
        (List.append_assoc st.lineBuffer t ts.flatten).symm, happ]
    dsimp only
    rw [← feedLines_set_lineBuffer]
    rw [feedLines_append]

theorem plainChar_split {c : Char} (h : plainChar c = true) :
    ¬c = '\r' ∧ ¬c = '\u001b' ∧ ¬c = '\u009b' := by
  unfold plainChar at h
  simp only [Bool.not_eq_true', Bool.or_eq_false_iff,
    decide_eq_false_iff_not] at h
  exact ⟨h.1.1, h.1.2, h.2⟩

theorem noEsc_of_plainChar {c : Char} (h : plainChar c = true) :
    noEsc c = true := by
  obtain ⟨-, h2, h3⟩ := plainChar_split h
  unfold noEsc
  simp [h2, h3]

theorem kiroRun_flatten_eq (chunks : List (List Char))
    (hplain : ∀ c ∈ chunks.flatten, plainChar c = true) :
    (kiroRun chunks).flatten = chunks.flatten := by
  have h1 : ∀ ch ∈ chunks, stripAnsi ch = ch := by
    intro ch hch
    refine stripAnsi_id_of_noEsc ?_
    intro c hc
    exact noEsc_of_plainChar (hplain c (List.mem_flatten.mpr ⟨ch, hch, hc⟩))
  have h2 : ∀ ch ∈ chunks, ∀ c ∈ ch, ¬c = '\r' := by
    intro ch hch c hc
    exact (plainChar_split (hplain c (List.mem_flatten.mpr ⟨ch, hch, hc⟩))).1
  rw [kiroRun_eq chunks h1 h2]
  have hr : ∀ c ∈ chunks.flatten, ¬c = '\r' :=
    fun c hc => (plainChar_split (hplain c hc)).1
  have hrejoin := splitP_rejoin chunks.flatten hr
  by_cases hf : (splitP chunks.flatten).2.isEmpty
  · rw [if_pos hf]
    rw [List.isEmpty_iff] at hf
    rw [hf, List.append_nil] at hrejoin
    simpa using hrejoin
  · rw [if_neg hf]
    rw [List.flatten_append]
    simpa using hrejoin

theorem kiroRun_no_cr (chunks : List (List Char))
    (hplain : ∀ c ∈ chunks.flatten, plainChar c = true) :
    ∀ x ∈ kiroRun chunks, ∀ c ∈ x, ¬c = '\r' := by
  have h1 : ∀ ch ∈ chunks, stripAnsi ch = ch := by
    intro ch hch
    refine stripAnsi_id_of_noEsc ?_
    intro c hc
    exact noEsc_of_plainChar (hplain c (List.mem_flatten.mpr ⟨ch, hch, hc⟩))
  have h2 : ∀ ch ∈ chunks, ∀ c ∈ ch, ¬c = '\r' := by
    intro ch hch c hc
    exact (plainChar_split (hplain c (List.mem_flatten.mpr ⟨ch, hch, hc⟩))).1
  rw [kiroRun_eq chunks h1 h2]
  intro x hx c hc
  rcases List.mem_append.mp hx with hx1 | hx2
  · obtain ⟨l, hl, rfl⟩ := List.mem_map.mp hx1
    rcases List.mem_append.mp hc with hc1 | hc2
    · exact (plainChar_split
        (hplain c (splitP_lines_mem chunks.flatten l hl c hc1))).1
    · simp only [List.mem_singleton] at hc2
      rw [hc2]
      decide
  · by_cases hf : (splitP chunks.flatten).2.isEmpty
    · rw [if_pos hf] at hx2
      simp at hx2
    · rw [if_neg hf] at hx2
      simp only [List.mem_singleton] at hx2
      rw [hx2] at hc
      exact (splitP_frag_no_newline chunks.flatten c hc).2

theorem runTurnState_chunks_eq (chunks : List (List Char))
    (hplain : ∀ c ∈ chunks.flatten, plainChar c = true) :
    runTurnState ((kiroRun chunks).map TurnInput.chunk)
      = feedLines (splitP chunks.flatten).1
          { initTurn with lineBuffer := (splitP chunks.flatten).2 } := by
  unfold runTurnState
  rw [List.foldl_map]
  rw [show (fun (s : TurnState) (t : List Char) => turnStep s (TurnInput.chunk t))
      = (fun (s : TurnState) (t : List Char) => handleChunk t s) from rfl]
  rw [handleChunkFold_eq (kiroRun chunks) initTurn (kiroRun_no_cr chunks hplain)
      (by intro c hc; simp [initTurn] at hc)]
  rw [show initTurn.lineBuffer = [] from rfl, List.nil_append,
    kiroRun_flatten_eq chunks hplain]

/-- C1 (amended): for subprocess output free of carriage returns and of
escape/CSI introducer bytes, the classified event sequence of the full
pipeline is independent of how the stream is chunked. -/
theorem claim_c1_amended (chunks1 chunks2 : List (List Char)) (e : Option Int)
    (hconcat : chunks1.flatten = chunks2.flatten)
    (hplain : ∀ c ∈ chunks1.flatten, plainChar c = true) :
    streamEvents chunks1 e = streamEvents chunks2 e := by
  unfold streamEvents runTurn
  rw [runTurnState_chunks_eq chunks1 hplain,
      runTurnState_chunks_eq chunks2 (by rw [← hconcat]; exact hplain),
      hconcat]

/-- Counterexample for C1 as stated: splitting the same byte stream
differently across delivery chunks changes the classified events, both
when a CR/LF pair is split (an extra empty text event appears) and when
an ANSI color sequence is split (its bytes leak into a text event). -/
theorem claim_c1_counterexample :
    (["a\r\nb\n".data].flatten = ["a\r".data, "\nb\n".data].flatten ∧
      ¬streamEvents ["a\r\nb\n".data] (some 0)
        = streamEvents ["a\r".data, "\nb\n".data] (some 0)) ∧
    (["\u001b[31mHi\n".data].flatten
        = ["\u001b[".data, "31mHi\n".data].flatten ∧
      ¬streamEvents ["\u001b[31mHi\n".data] (some 0)
        = streamEvents ["\u001b[".data, "31mHi\n".data] (some 0)) := by
  decide

/-- Witness for the amended C1 at two concrete chunkings of one plain
stream. -/
theorem claim_c1_witness :
    streamEvents ["ab\ncd\n".data] (some 0)
      = streamEvents ["ab\nc".data, "d\n".data] (some 0) :=
  claim_c1_amended ["ab\ncd\n".data] ["ab\nc".data, "d\n".data] (some 0)
    (by decide) (by decide)

theorem processChunk_event_cases (raw b : List Char) (fin : Bool) :
    (∀ ev ∈ (processChunk raw fin b).1,
      (∃ l ∈ splitNL (b ++ stripAnsi raw), ev = l ++ ['\n'])
      ∨ ev ∈ splitNL (b ++ stripAnsi raw)) ∧
    (∀ c ∈ (processChunk raw fin b).2,
      ∃ l ∈ splitNL (b ++ stripAnsi raw), c ∈ l) := by
  simp only [processChunk]
  by_cases he : endsNL (b ++ stripAnsi raw) = true
  · rw [if_pos he]
    simp only [List.isEmpty_nil, Bool.not_true, Bool.and_false,
      Bool.false_eq_true, if_false]
    constructor
    · intro ev hev
      obtain ⟨l, hl, rfl⟩ := List.mem_map.mp hev
      exact Or.inl ⟨l, List.dropLast_subset _ hl, rfl⟩
    · intro c hc
      simp at hc
  · rw [if_neg he]
    by_cases hf :
        (fin && !((splitNL (b ++ stripAnsi raw)).getLastD []).isEmpty) = true
    · rw [if_pos hf]
      constructor
      · intro ev hev
        rcases List.mem_append.mp hev with h | h
        · obtain ⟨l, hl, rfl⟩ := List.mem_map.mp h
          exact Or.inl ⟨l, List.dropLast_subset _ hl, rfl⟩
        · simp only [List.mem_singleton] at h
          subst h
          exact Or.inr (getLastD_mem _ _ (splitNL_ne_nil _))
      · intro c hc
        simp at hc
    · rw [if_neg hf]
      constructor
      · intro ev hev
        obtain ⟨l, hl, rfl⟩ := List.mem_map.mp hev
        exact Or.inl ⟨l, List.dropLast_subset _ hl, rfl⟩
      · intro c hc
        exact ⟨_, getLastD_mem _ _ (splitNL_ne_nil _), hc⟩

theorem processChunk_chars (raw b : List Char) (fin : Bool) :
    (∀ ev ∈ (processChunk raw fin b).1, ∀ c ∈ ev,
      c = '\n' ∨ c ∈ b ++ stripAnsi raw) ∧
    (∀ c ∈ (processChunk raw fin b).2, c ∈ b ++ stripAnsi raw) := by
  constructor
  · intro ev hev c hc
    rcases (processChunk_event_cases raw b fin).1 ev hev with ⟨l, hl, rfl⟩ | h
    · rcases List.mem_append.mp hc with h | h
      · exact Or.inr (splitNL_mem l hl c h)
      · simp only [List.mem_singleton] at h
        exact Or.inl h
    · exact Or.inr (splitNL_mem ev h c hc)
  · intro c hc
    obtain ⟨l, hl, hcl⟩ := (processChunk_event_cases raw b fin).2 c hc
    exact splitNL_mem l hl c hcl

theorem kiroFold_noEsc (chunks : List (List Char)) :
    ∀ (evs : List (List Char)) (b : List Char),
    (∀ ch ∈ chunks, ∀ c ∈ stripAnsi ch, noEsc c = true) →
    (∀ ev ∈ evs, ∀ c ∈ ev, noEsc c = true) →
    (∀ c ∈ b, noEsc c = true) →
    (∀ ev ∈ (chunks.foldl kiroStep (evs, b)).1, ∀ c ∈ ev, noEsc c = true) ∧
    (∀ c ∈ (chunks.foldl kiroStep (evs, b)).2, noEsc c = true) := by
  induction chunks with
  | nil => exact fun evs b _ h2 h3 => ⟨h2, h3⟩
  | cons ch chunks ih =>
    intro evs b h1 h2 h3
    simp only [List.foldl_cons]
    rw [show kiroStep (evs, b) ch
        = (evs ++ (processChunk ch false b).1, (processChunk ch false b).2)
      from rfl]
    have hmix : ∀ c ∈ b ++ stripAnsi ch, noEsc c = true := by
      intro c hc
      rcases List.mem_append.mp hc with h | h
      · exact h3 c h
      · exact h1 ch (List.mem_cons_self ch chunks) c h
    refine ih _ _ (fun x hx => h1 x (List.mem_cons_of_mem ch hx)) ?_ ?_
    · intro ev hev c hc
      rcases List.mem_append.mp hev with h | h
      · exact h2 ev h c hc
      · rcases (processChunk_chars ch b false).1 ev h c hc with h' | h'
        · rw [h']
          decide
        · exact hmix c h'
    · intro c hc
      exact hmix c ((processChunk_chars ch b false).2 c hc)

/-- Counterexample for C2 as stated: the color sequence `ESC[31m` split
as `a ESC` + `[31m\n` is not held back by `processChunk`; the emitted
event carries the literal escape byte, although the unsplit stream is
normalized cleanly. -/
theorem claim_c2_counterexample :
    kiroRun ["a\u001b".data, "[31m\n".data] = ["a\u001b[31m\n".data] ∧
    '\u001b' ∈ "a\u001b[31m\n".data ∧
    stripAnsi ("a\u001b".data ++ "[31m\n".data) = "a\n".data := by
  decide

/-- C2 (amended): `processChunk` holds back only the cleaned trailing
partial line, not raw unprocessed bytes; `stripAnsi` is applied to each
delivery chunk in isolation, so emitted events are free of escape/CSI
introducer bytes exactly under the condition that each individual
chunk's own `stripAnsi` output is free of them — a sequence split
across two deliveries is not protected. -/
theorem claim_c2_amended (chunks : List (List Char))
    (h : (chunks.all fun ch => (stripAnsi ch).all noEsc) = true) :
    ((kiroRun chunks).all fun ev => ev.all noEsc) = true := by
  rw [List.all_eq_true] at h
  rw [List.all_eq_true]
  intro ev hev
  rw [List.all_eq_true]
  intro c hc
  have h1 : ∀ ch ∈ chunks, ∀ x ∈ stripAnsi ch, noEsc x = true := by
    intro ch hch x hx
    have := h ch hch
    rw [List.all_eq_true] at this
    exact this x hx
  have hfold := kiroFold_noEsc chunks [] []
    h1 (by intro ev h'; simp at h') (by intro c h'; simp at h')
  unfold kiroRun at hev
  rcases List.mem_append.mp hev with h2 | h2
  · exact hfold.1 ev h2 c hc
  · rcases (processChunk_chars [] (chunks.foldl kiroStep ([], [])).2 true).1
        ev h2 c hc with h' | h'
    · rw [h']
      decide
    · rw [show stripAnsi ([] : List Char) = [] from rfl, List.append_nil] at h'
      exact hfold.2 c h'

/-- Witness for the amended C2: chunks whose individual normalization
leaves no escape bytes produce only escape-free events. -/
theorem claim_c2_amended_witness :
    ((kiroRun ["hello\n".data, "wörld".data]).all fun ev =>
      ev.all noEsc) = true :=
  claim_c2_amended ["hello\n".data, "wörld".data] (by decide)

/-! ## C8: the current-mode invariant of `newSession` -/

theorem resolvePreferred_ne_nil (req zed defAg : Option (List Char))
    (agents : List ModeEntry)
    (hwf : wfModeInputs req zed defAg agents = true) :
    ¬resolvePreferred req zed defAg agents = [] := by
  unfold wfModeInputs at hwf
  simp only [Bool.and_eq_true, Bool.not_eq_true', decide_eq_false_iff_not,
    List.all_eq_true] at hwf
  obtain ⟨⟨⟨hreq, hzed⟩, hdef⟩, hagents⟩ := hwf
  have hfb : ¬((zed.or defAg).or (agents.head?.map (fun a => a.id))).getD
      "default".data = [] := by
    cases zed with
    | some z =>
      simp only [Option.or_some, Option.getD_some]
      intro hz
      exact hzed (by rw [hz])
    | none =>
      cases defAg with
      | some d =>
        simp only [Option.none_or, Option.or_some, Option.getD_some]
        intro hd
        exact hdef (by rw [hd])
      | none =>
        cases hh : agents.head? with
        | some a =>
          simp only [Option.none_or, hh, Option.map_some', Option.getD_some]
          have hne := hagents a (List.mem_of_mem_head? (by simp [hh]))
          simp only [Bool.not_eq_true', List.isEmpty_eq_false] at hne
          exact hne
        | none =>
          simp only [Option.none_or, hh, Option.map_none', Option.getD_none]
          decide
  unfold resolvePreferred
  cases req with
  | some r =>
    dsimp only
    by_cases hr : (!r.isEmpty && !(r = "default".data)) = true
    · rw [if_pos hr]
      simp only [Bool.and_eq_true, Bool.not_eq_true',
        List.isEmpty_eq_false] at hr
      exact hr.1
    · rw [if_neg hr]
      exact hfb
  | none => exact hfb

/-- Counterexample for C8 as stated: when the host-configured default
mode is the literal string `default` and the discovered agent list does
not contain it, `newSession` selects `default` but the available-mode
list does not contain it; moreover the entry synthesized for an absent
preferred mode carries the description `From settings` rather than
being description-less. -/
theorem claim_c8_counterexample :
    ((newSessionModes none (some "default".data) none
        [⟨"foo".data, "foo".data, none⟩]).currentModeId = "default".data ∧
      modesInvariant (newSessionModes none (some "default".data) none
        [⟨"foo".data, "foo".data, none⟩]) = false) ∧
    (newSessionModes (some "dev".data) none none
        [⟨"foo".data, "foo".data, none⟩]).availableModes
      = [⟨"foo".data, "foo".data, none⟩,
         ⟨"dev".data, "dev".data, some "From settings".data⟩] := by
  decide

/-- C8 (amended): with well-formed collaborator outputs, a fresh
session's available-mode list contains the selected mode id whenever
the resolved preferred mode differs from the literal `default`, or the
discovered list is empty, or the discovered list itself offers
`default`; when the preferred mode is absent (and not `default`),
`newSession` synthesizes the entry `{ id, name := id, description :=
"From settings" }` — not a description-less one; and the invariant is
preserved by `setSessionMode` and `setSessionModel`. -/
theorem claim_c8_amended :
    (∀ (req zed defAg : Option (List Char)) (agents : List ModeEntry),
      wfModeInputs req zed defAg agents = true →
      (¬(newSessionModes req zed defAg agents).currentModeId
          = "default".data ∨
        agents = [] ∨ agents.any (fun a => a.id = "default".data) = true) →
      modesInvariant (newSessionModes req zed defAg agents) = true) ∧
    (∀ (req zed defAg : Option (List Char)) (agents : List ModeEntry),
      wfModeInputs req zed defAg agents = true →
      ¬resolvePreferred req zed defAg agents = "default".data →
      (if !agents.isEmpty then agents
        else [⟨"default".data, "default".data, none⟩]).any
          (fun m => m.id = resolvePreferred req zed defAg agents) = false →
      (newSessionModes req zed defAg agents).availableModes
        = (if !agents.isEmpty then agents
            else [⟨"default".data, "default".data, none⟩])
          ++ [⟨resolvePreferred req zed defAg agents,
              resolvePreferred req zed defAg agents,
              some "From settings".data⟩]) ∧
    (∀ (s : SessionS) (modeId modelId : List Char),
      modesInvariant s.modes = true →
      modesInvariant (applySetSessionMode s modeId).modes = true ∧
      modesInvariant (applySetSessionModel s modelId).modes = true) := by
  refine ⟨?_, ?_, ?_⟩
  · intro req zed defAg agents hwf hcond
    unfold newSessionModes modesInvariant
    dsimp only
    by_cases hp : resolvePreferred req zed defAg agents = "default".data
    · rw [hp]
      simp only [decide_True, Bool.not_true, Bool.and_false, Bool.false_and,
        Bool.false_eq_true, if_false]
      rcases hcond with h1 | h2 | h3
      · exfalso
        apply h1
        unfold newSessionModes
        dsimp only
        exact hp
      · subst h2
        decide
      · have hne : agents.isEmpty = false := by
          rw [List.any_eq_true] at h3
          obtain ⟨a, ha, -⟩ := h3
          rw [List.isEmpty_eq_false]
          intro he
          rw [he] at ha
          simp at ha
        rw [hne]
        simp only [Bool.not_false, if_true]
        exact h3
    · have hnil := resolvePreferred_ne_nil req zed defAg agents hwf
      have h1 : (resolvePreferred req zed defAg agents).isEmpty = false :=
        List.isEmpty_eq_false.mpr hnil
      have h2 : decide (resolvePreferred req zed defAg agents
          = "default".data) = false := decide_eq_false hp
      by_cases hmem : ((if (!agents.isEmpty) = true then agents
          else [⟨"default".data, "default".data, none⟩]).any
            (fun m => m.id = resolvePreferred req zed defAg agents)) = true
      · rw [hmem]
        simp only [Bool.not_true, Bool.and_false, Bool.false_eq_true, if_false]
        exact hmem
      · have hm : ((if (!agents.isEmpty) = true then agents
            else [⟨"default".data, "default".data, none⟩]).any
              (fun m => m.id = resolvePreferred req zed defAg agents))
            = false := by simpa using hmem
        rw [h1, h2, hm]
        simp
  · intro req zed defAg agents hwf hp hmem
    unfold newSessionModes
    dsimp only
    have hnil := resolvePreferred_ne_nil req zed defAg agents hwf
    have h1 : (resolvePreferred req zed defAg agents).isEmpty = false :=
      List.isEmpty_eq_false.mpr hnil
    have h2 : decide (resolvePreferred req zed defAg agents
        = "default".data) = false := decide_eq_false hp
    rw [h1, h2, hmem]
    simp
  · intro s modeId modelId hinv
    constructor
    · unfold applySetSessionMode setSessionMode
      by_cases h : s.modes.availableModes.any (fun m => m.id = modeId) = true
      · rw [if_pos h]
        unfold modesInvariant
        simpa using h
      · rw [if_neg h]
        exact hinv
    · unfold applySetSessionModel setSessionModel
      by_cases h : s.models.availableModels.any
          (fun m => m.modelId = modelId) = true
      · rw [if_pos h]
        exact hinv
      · rw [if_neg h]
        exact hinv

/-- Witness for the amended C8 at concrete inputs. -/
theorem claim_c8_witness :
    modesInvariant (newSessionModes (some "dev".data) none none
      [⟨"foo".data, "foo".data, none⟩]) = true ∧
    modesInvariant (applySetSessionMode sampleSession "default".data).modes
      = true :=
  ⟨claim_c8_amended.1 (some "dev".data) none none
      [⟨"foo".data, "foo".data, none⟩] (by decide) (by decide),
   (claim_c8_amended.2.2 sampleSession "default".data "x".data
      (by decide)).1⟩

/-! ## C4: tool-call lifecycle -/

theorem lastIsTerm_append_single (q : List AgentEvent) (e : AgentEvent) :
    lastIsTerm (q ++ [e]) = evIsTerm e := by
  unfold lastIsTerm
  rw [List.getLast?_concat]

theorem termCount_append (i : Nat) (q1 q2 : List AgentEvent) :
    termCount i (q1 ++ q2) = termCount i q1 + termCount i q2 := by
  unfold termCount
  rw [List.countP_append]

theorem openedB_append (i : Nat) (q1 q2 : List AgentEvent) :
    openedB i (q1 ++ q2) = (openedB i q1 || openedB i q2) := by
  unfold openedB
  rw [List.any_append]

theorem termCount_single_no_mention {i : Nat} {e : AgentEvent}
    (h : evMentions i e = false) : termCount i [e] = 0 := by
  unfold termCount
  simp [h]

theorem closedOKB_append_no_mention {i : Nat} {q E : List AgentEvent}
    (h : closedOKB i q = true)
    (hE : ∀ e ∈ E, evMentions i e = false) :
    closedOKB i (q ++ E) = true := by
  unfold closedOKB termCount at h ⊢
  rw [List.filter_append, List.countP_append]
  have hf : E.filter (evMentions i) = [] := by
    rw [List.filter_eq_nil_iff]
    intro e he
    simp [hE e he]
  have hcnt : E.countP (fun e => evMentions i e && evIsTerm e) = 0 := by
    rw [List.countP_eq_zero]
    intro e he
    simp [hE e he]
  rw [hf, hcnt, List.append_nil]
  simpa using h

theorem closedOKB_close {i : Nat} {q : List AgentEvent} {e : AgentEvent}
    (hcnt : termCount i q = 0) (hm : evMentions i e = true)
    (ht : evIsTerm e = true) : closedOKB i (q ++ [e]) = true := by
  have h1 : (q ++ [e]).filter (evMentions i)
      = q.filter (evMentions i) ++ [e] := by
    rw [List.filter_append]
    simp [hm]
  have h2 : termCount i (q ++ [e]) = 1 := by
    rw [termCount_append, hcnt]
    unfold termCount
    simp [hm, ht]
  unfold closedOKB
  rw [h2, h1, lastIsTerm_append_single]
  simp [ht]

theorem sendUpdate_not_cancelled {st : TurnState} (ev : AgentEvent)
    (h : st.cancelled = false) :
    sendUpdate ev st = { st with sentAny := true, queue := st.queue ++ [ev] } := by
  simp [sendUpdate, h]

theorem evMentions_of_toolCall {i : Nat} {e : AgentEvent}
    (h : evIsToolCall i e = true) : evMentions i e = true := by
  cases e <;> simp_all [evIsToolCall, evMentions]

theorem openedB_le {i n : Nat} {q : List AgentEvent}
    (hb : mentionBound n q) (ho : openedB i q = true) : i ≤ n := by
  unfold openedB at ho
  rw [List.any_eq_true] at ho
  obtain ⟨e, he, hte⟩ := ho
  exact hb i e he (evMentions_of_toolCall hte)

theorem termCount_big {n i : Nat} {q : List AgentEvent}
    (hb : mentionBound n q) (h : n < i) : termCount i q = 0 := by
  unfold termCount
  rw [List.countP_eq_zero]
  intro e he hp
  rw [Bool.and_eq_true] at hp
  exact absurd (hb i e he hp.1) (by omega)

theorem handleLine_inv (line : List Char) {st : TurnState}
    (hc : st.cancelled = false) (h : TurnInv st) :
    TurnInv (handleLine line st) := by
  obtain ⟨hmb, hrest⟩ := h
  unfold handleLine
  cases hm : matchToolStart line with
  | some p =>
    obtain ⟨cmd, tool⟩ := p
    cases ha : st.activeTool with
    | some t =>
      rw [ha] at hrest
      obtain ⟨hid, hop, hterm, hclosed⟩ := hrest
      simp only [sendUpdate, hc, Bool.false_eq_true, if_false]
      unfold TurnInv
      dsimp only
      refine ⟨?_, rfl, ?_, ?_, ?_⟩
      · intro i e he hme
        rcases List.mem_append.mp he with he1 | he2
        · rcases List.mem_append.mp he1 with he3 | he4
          · exact Nat.le_succ_of_le (hmb i e he3 hme)
          · simp only [List.mem_singleton] at he4
            subst he4
            simp only [toolUpdateEv, evMentions, decide_eq_true_eq] at hme
            omega
        · simp only [List.mem_singleton] at he2
          subst he2
          simp only [evMentions, decide_eq_true_eq] at hme
          omega
      · rw [openedB_append]
        simp [openedB, evIsToolCall]
      · rw [termCount_append, termCount_append]
        have h1 : termCount (st.toolSeq + 1) st.queue = 0 :=
          termCount_big hmb (by omega)
        have h2 : termCount (st.toolSeq + 1) [toolUpdateEv t (some .completed)]
            = 0 := by
          apply termCount_single_no_mention
          simp only [toolUpdateEv, evMentions, hid]
          simp
        have h3 : termCount (st.toolSeq + 1)
            [AgentEvent.toolCall (st.toolSeq + 1)
              (if !tool.isEmpty then tool ++ ": ".data ++ cmd else cmd)
              (if tool = "shell".data then ToolKind.execute else ToolKind.other)
              cmd] = 0 := by
          unfold termCount
          simp [evIsTerm]
        rw [h1, h2, h3]
      · intro i hopi hne
        rw [openedB_append, openedB_append] at hopi
        have hopq : openedB i st.queue = true := by
          rcases Bool.or_eq_true_iff.mp hopi with h1 | h2
          · rcases Bool.or_eq_true_iff.mp h1 with h3 | h4
            · exact h3
            · simp [openedB, evIsToolCall, toolUpdateEv] at h4
          · simp only [openedB, List.any_cons, List.any_nil,
              Bool.or_false, evIsToolCall, decide_eq_true_eq] at h2
            exact absurd h2.symm hne
        have hile : i ≤ st.toolSeq := openedB_le hmb hopq
        rw [List.append_assoc]
        by_cases hit : i = t.id
        · subst hit
          rw [show [toolUpdateEv t (some ToolStatus.completed)] ++
              [AgentEvent.toolCall (st.toolSeq + 1)
                (if !tool.isEmpty then tool ++ ": ".data ++ cmd else cmd)
                (if tool = "shell".data then ToolKind.execute
                 else ToolKind.other) cmd]
              = ([toolUpdateEv t (some ToolStatus.completed)] ++
                [AgentEvent.toolCall (st.toolSeq + 1)
                  (if !tool.isEmpty then tool ++ ": ".data ++ cmd else cmd)
                  (if tool = "shell".data then ToolKind.execute
                   else ToolKind.other) cmd]) from rfl]
          rw [← List.append_assoc]
          apply closedOKB_append_no_mention
          · exact closedOKB_close hterm (by simp [toolUpdateEv, evMentions])
              (by simp [toolUpdateEv, evIsTerm])
          · intro e he
            simp only [List.mem_singleton] at he
            subst he
            simp only [evMentions, decide_eq_false_iff_not]
            omega
        · apply closedOKB_append_no_mention (hclosed i hopq hit)
          intro e he
          simp only [List.cons_append, List.nil_append, List.mem_cons,
            List.mem_singleton] at he
          rcases he with he | he | he
          · subst he
            simp only [toolUpdateEv, evMentions, decide_eq_false_iff_not]
            exact fun hq => hit hq.symm
          · subst he
            simp only [evMentions, decide_eq_false_iff_not]
            omega
          · exact absurd he (by simp)
    | none =>
      rw [ha] at hrest
      simp only [sendUpdate, hc, Bool.false_eq_true, if_false]
      unfold TurnInv
      dsimp only
      refine ⟨?_, rfl, ?_, ?_, ?_⟩
      · intro i e he hme
        rcases List.mem_append.mp he with he1 | he2
        · exact Nat.le_succ_of_le (hmb i e he1 hme)
        · simp only [List.mem_singleton] at he2
          subst he2
          simp only [evMentions, decide_eq_true_eq] at hme
          omega
      · rw [openedB_append]
        simp [openedB, evIsToolCall]
      · rw [termCount_append]
        have h1 : termCount (st.toolSeq + 1) st.queue = 0 :=
          termCount_big hmb (by omega)
        have h3 : termCount (st.toolSeq + 1)
            [AgentEvent.toolCall (st.toolSeq + 1)
              (if !tool.isEmpty then tool ++ ": ".data ++ cmd else cmd)
              (if tool = "shell".data then ToolKind.execute else ToolKind.other)
              cmd] = 0 := by
          unfold termCount
          simp [evIsTerm]
        rw [h1, h3]
      · intro i hopi hne
        rw [openedB_append] at hopi
        have hopq : openedB i st.queue = true := by
          rcases Bool.or_eq_true_iff.mp hopi with h1 | h2
          · exact h1
          · simp only [openedB, List.any_cons, List.any_nil,
              Bool.or_false, evIsToolCall, decide_eq_true_eq] at h2
            exact absurd h2.symm hne
        have hile : i ≤ st.toolSeq := openedB_le hmb hopq
        apply closedOKB_append_no_mention (hrest i hopq)
        intro e he
        simp only [List.mem_singleton] at he
        subst he
        simp only [evMentions, decide_eq_false_iff_not]
        omega
  | none =>
    cases ha : st.activeTool with
    | some t =>
      rw [ha] at hrest
      obtain ⟨hid, hop, hterm, hclosed⟩ := hrest
      dsimp only
      by_cases hd : toolDone line = true
      · rw [if_pos hd]
        simp only [sendUpdate, hc, Bool.false_eq_true, if_false]
        unfold TurnInv
        dsimp only
        try rw [ha]
        refine ⟨?_, ?_⟩
        · intro i e he hme
          rcases List.mem_append.mp he with he1 | he2
          · exact hmb i e he1 hme
          · simp only [List.mem_singleton] at he2
            subst he2
            simp only [toolUpdateEv, evMentions, decide_eq_true_eq] at hme
            omega
        · intro i hopi
          rw [openedB_append] at hopi
          have hopq : openedB i st.queue = true := by
            rcases Bool.or_eq_true_iff.mp hopi with h1 | h2
            · exact h1
            · simp [openedB, evIsToolCall, toolUpdateEv] at h2
          by_cases hit : i = t.id
          · subst hit
            exact closedOKB_close hterm (by simp [toolUpdateEv, evMentions])
              (by simp [toolUpdateEv, evIsTerm])
          · apply closedOKB_append_no_mention (hclosed i hopq hit)
            intro e he
            simp only [List.mem_singleton] at he
            subst he
            simp only [toolUpdateEv, evMentions, decide_eq_false_iff_not]
            exact fun hq => hit hq.symm
      · rw [if_neg hd]
        simp only [sendUpdate, hc, Bool.false_eq_true, if_false]
        unfold TurnInv
        dsimp only
        refine ⟨?_, hid, ?_, ?_, ?_⟩
        · intro i e he hme
          rcases List.mem_append.mp he with he1 | he2
          · exact hmb i e he1 hme
          · simp only [List.mem_singleton] at he2
            subst he2
            simp only [toolUpdateEv, evMentions, decide_eq_true_eq] at hme
            omega
        · rw [openedB_append]
          rw [hop]
          rfl
        · rw [termCount_append, hterm]
          have h2 : termCount t.id
              [toolUpdateEv { t with output := t.output ++ [line] }
                (some .inProgress)] = 0 := by
            unfold termCount
            simp [toolUpdateEv, evIsTerm]
          rw [h2]
        · intro i hopi hne
          rw [openedB_append] at hopi
          have hopq : openedB i st.queue = true := by
            rcases Bool.or_eq_true_iff.mp hopi with h1 | h2
            · exact h1
            · simp [openedB, evIsToolCall, toolUpdateEv] at h2
          apply closedOKB_append_no_mention (hclosed i hopq hne)
          intro e he
          simp only [List.mem_singleton] at he
          subst he
          simp only [toolUpdateEv, evMentions, decide_eq_false_iff_not]
          exact fun hq => hne hq.symm
    | none =>
      rw [ha] at hrest
      dsimp only
      by_cases ht : (thoughtPre.any fun p => hasPre p line) = true
      · rw [if_pos ht]
        simp only [sendUpdate, hc, Bool.false_eq_true, if_false]
        unfold TurnInv
        dsimp only
        try rw [ha]
        refine ⟨?_, ?_⟩
        · intro i e he hme
          rcases List.mem_append.mp he with he1 | he2
          · exact hmb i e he1 hme
          · simp only [List.mem_singleton] at he2
            subst he2
            simp [evMentions] at hme
        · intro i hopi
          rw [openedB_append] at hopi
          have hopq : openedB i st.queue = true := by
            rcases Bool.or_eq_true_iff.mp hopi with h1 | h2
            · exact h1
            · simp [openedB, evIsToolCall] at h2
          apply closedOKB_append_no_mention (hrest i hopq)
          intro e he
          simp only [List.mem_singleton] at he
          subst he
          simp [evMentions]
      · rw [if_neg ht]
        simp only [sendUpdate, hc, Bool.false_eq_true, if_false]
        unfold TurnInv
        dsimp only
        try rw [ha]
        refine ⟨?_, ?_⟩
        · intro i e he hme
          rcases List.mem_append.mp he with he1 | he2
          · exact hmb i e he1 hme
          · simp only [List.mem_singleton] at he2
            subst he2
            simp [evMentions] at hme
        · intro i hopi
          rw [openedB_append] at hopi
          have hopq : openedB i st.queue = true := by
            rcases Bool.or_eq_true_iff.mp hopi with h1 | h2
            · exact h1
            · simp [openedB, evIsToolCall] at h2
          apply closedOKB_append_no_mention (hrest i hopq)
          intro e he
          simp only [List.mem_singleton] at he
          subst he
          simp [evMentions]

theorem TurnInv_lineBuffer (st : TurnState) (l : List Char) :
    TurnInv { st with lineBuffer := l } ↔ TurnInv st := Iff.rfl

theorem feedLines_inv (ls : List (List Char)) {st : TurnState}
    (hc : st.cancelled = false) (h : TurnInv st) : TurnInv (feedLines ls st) := by
  induction ls generalizing st with
  | nil => exact h
  | cons l ls ih =>
    have hc2 : (handleLine l st).cancelled = false := by
      rw [handleLine_cancelled]; exact hc
    exact ih hc2 (handleLine_inv l hc h)

theorem handleChunk_inv (t : List Char) {st : TurnState}
    (hc : st.cancelled = false) (h : TurnInv st) : TurnInv (handleChunk t st) := by
  unfold handleChunk
  exact feedLines_inv _ hc ((TurnInv_lineBuffer st _).mpr h)

theorem runSteps_inv (inputs : List TurnInput) {st : TurnState}
    (hnc : noCancel inputs = true) (hc : st.cancelled = false) (h : TurnInv st) :
    TurnInv (inputs.foldl turnStep st) ∧
    (inputs.foldl turnStep st).cancelled = false := by
  induction inputs generalizing st with
  | nil => exact ⟨h, hc⟩
  | cons i is ih =>
    rw [noCancel, List.all_cons, Bool.and_eq_true] at hnc
    cases i with
    | chunk t =>
      have hc2 : (handleChunk t st).cancelled = false := by
        rw [handleChunk_cancelled]; exact hc
      exact ih hnc.2 hc2 (handleChunk_inv t hc h)
    | cancel => simp [isCancelInput] at hnc

theorem TurnInv_init : TurnInv initTurn := by
  unfold TurnInv
  refine ⟨?_, ?_⟩
  · intro i e he hm
    simp [initTurn] at he
  · intro i hi
    simp [initTurn, openedB] at hi

theorem flushLineBuffer_inv {st : TurnState} (hc : st.cancelled = false)
    (h : TurnInv st) : TurnInv (flushLineBuffer st) := by
  unfold flushLineBuffer
  split
  · exact (TurnInv_lineBuffer _ _).mpr (handleLine_inv _ hc h)
  · exact h

theorem forceCloseTool_emits (e : Option Int) {st : TurnState} {t : ActiveTool}
    (hc : st.cancelled = false) (ha : st.activeTool = some t) :
    (forceCloseTool e st).queue
      = st.queue ++
        [toolUpdateEv t (some (if e = some 0 then .completed else .failed))] ∧
    (forceCloseTool e st).activeTool = none := by
  unfold forceCloseTool
  rw [ha]
  dsimp only
  rw [sendUpdate_not_cancelled _ hc]
  exact ⟨rfl, rfl⟩

theorem forceCloseTool_closed (e : Option Int) {st : TurnState}
    (hc : st.cancelled = false) (h : TurnInv st) :
    ∀ i, openedB i (forceCloseTool e st).queue = true →
      closedOKB i (forceCloseTool e st).queue = true := by
  obtain ⟨hmb, hrest⟩ := h
  unfold forceCloseTool
  cases ha : st.activeTool with
  | none =>
    rw [ha] at hrest
    exact hrest
  | some t =>
    rw [ha] at hrest
    obtain ⟨hid, hop, hterm, hclosed⟩ := hrest
    dsimp only
    rw [sendUpdate_not_cancelled _ hc]
    dsimp only
    intro i hopi
    rw [openedB_append] at hopi
    have hopq : openedB i st.queue = true := by
      rcases Bool.or_eq_true_iff.mp hopi with h1 | h2
      · exact h1
      · simp [openedB, evIsToolCall, toolUpdateEv] at h2
    by_cases hit : i = t.id
    · subst hit
      refine closedOKB_close hterm (by simp [toolUpdateEv, evMentions]) ?_
      by_cases h0 : e = some 0 <;> simp [h0, toolUpdateEv, evIsTerm]
    · apply closedOKB_append_no_mention (hclosed i hopq hit)
      intro ev he
      simp only [List.mem_singleton] at he
      subst he
      simp only [toolUpdateEv, evMentions, decide_eq_false_iff_not]
      exact fun hq => hit hq.symm

theorem settleStreams_closed (e : Option Int) {st : TurnState}
    (hc : st.cancelled = false) (h : TurnInv st) :
    ∀ i, openedB i (settleStreams e st).queue = true →
      closedOKB i (settleStreams e st).queue = true := by
  unfold settleStreams
  have hc2 : (flushLineBuffer st).cancelled = false := by
    rw [flushLineBuffer_cancelled]; exact hc
  exact forceCloseTool_closed e hc2 (flushLineBuffer_inv hc h)

theorem finishTurn_closed (e : Option Int) {st : TurnState}
    (hc : st.cancelled = false) (h : TurnInv st) :
    ∀ i, openedB i ((finishTurn e st).1).queue = true →
      closedOKB i ((finishTurn e st).1).queue = true := by
  have hall := settleStreams_closed e hc h
  have hcs : (settleStreams e st).cancelled = false := by
    rw [settleStreams_cancelled]; exact hc
  unfold finishTurn
  dsimp only
  rw [hcs]
  simp only [Bool.false_eq_true, if_false]
  split
  · exact hall
  · split
    · rw [sendUpdate_not_cancelled _ hcs]
      dsimp only
      intro i hopi
      rw [openedB_append] at hopi
      have hopq : openedB i (settleStreams e st).queue = true := by
        rcases Bool.or_eq_true_iff.mp hopi with h1 | h2
        · exact h1
        · simp [openedB, evIsToolCall] at h2
      apply closedOKB_append_no_mention (hall i hopq)
      intro ev he
      simp only [List.mem_singleton] at he
      subst he
      simp [evMentions]
    · exact hall

/-- **C4 (amended).** In a turn during which no `cancel` notification is
processed, every tool call opened on the stream receives exactly one
terminal status update — its last mentioning event — whether closed by a
completion line, force-closed by a subsequent tool-start line, or
force-closed at subprocess exit; and the exit-time force-close maps exit
code 0 to `completed` and any other or missing exit code to `failed`.
(The unamended claim is false: after a cancellation, `sendUpdate` drops
the force-close update, so an open tool call never reaches a terminal
status — see the counterexample.) -/
theorem claim_c4_amended :
    (∀ (inputs : List TurnInput) (exitCode : Option Int) (i : Nat),
      noCancel inputs = true →
      openedB i ((runTurn inputs exitCode).1).queue = true →
      closedOKB i ((runTurn inputs exitCode).1).queue = true) ∧
    (∀ (exitCode : Option Int) (st : TurnState) (t : ActiveTool),
      st.cancelled = false → st.activeTool = some t →
      (forceCloseTool exitCode st).queue
        = st.queue ++ [toolUpdateEv t
            (some (if exitCode = some 0 then .completed else .failed))]) := by
  constructor
  · intro inputs e i hnc hop
    have h := runSteps_inv inputs hnc rfl TurnInv_init
    exact finishTurn_closed e h.2 h.1 i hop
  · intro e st t hc ha
    exact (forceCloseTool_emits e hc ha).1

/-- **C4 counterexample.** A tool-start line opens tool call 1; the user
then cancels; the subprocess exits with code 0. The force-close update is
suppressed by the cancellation check in `sendUpdate`, so tool call 1 is
opened but never receives a terminal status update. -/
theorem claim_c4_counterexample :
    openedB 1 ((runTurn
      [TurnInput.chunk
        ("I will run the following command: ls (using tool: shell)\n".data),
       TurnInput.cancel] (some 0)).1).queue = true ∧
    closedOKB 1 ((runTurn
      [TurnInput.chunk
        ("I will run the following command: ls (using tool: shell)\n".data),
       TurnInput.cancel] (some 0)).1).queue = false := by
  decide

/-- Witness for C4: a cancel-free turn that opens tool call 1 and exits
with code 0 closes it properly, and a force-close at exit code 3 emits a
`failed` terminal update. -/
theorem claim_c4_witness :
    closedOKB 1 ((runTurn
      [TurnInput.chunk
        ("I will run the following command: ls (using tool: shell)\n".data)]
      (some 0)).1).queue = true ∧
    (forceCloseTool (some 3)
      ⟨false, true, 1, some ⟨1, .execute, "shell: ls".data, "ls".data, []⟩,
       [], []⟩).queue
      = [toolUpdateEv ⟨1, .execute, "shell: ls".data, "ls".data, []⟩
          (some .failed)] := by
  constructor
  · exact claim_c4_amended.1 _ (some 0) 1 (by decide) (by decide)
  · exact claim_c4_amended.2 (some 3) _ _ rfl rfl
